import Mathlib

/-!
Verification development for the two CASE-to-CTDL conversion scripts
(src/CASE/CASE-CTDL.py and src/CASE/CASEpathways-CTDLLearningPrograms.py).

The Python code is shallowly embedded: Python dicts used as keyed stores
become association lists (`dictInsert`/`dictGet`, preserving first-insertion
position and last-assigned value) or total functions with a default;
Python sets become duplicate-free lists built with `appendIfAbsent`
(only membership and sorted enumeration are ever observed); JSON values of
unknown shape become the mutual inductive `Val`.  Identifier-bearing fields
(`identifier`, `CFItemGUID`, `uri`, `CFItemURI`, endpoint strings,
`sequenceNumber`) hold strings in every input the scripts consume, so they
are modelled as optional strings (Python's `str` is the identity there).
-/

namespace CaseCtdl

/-- Whether a character is whitespace for Python's `str.strip`
(ASCII space, tab, newline, carriage return, vertical tab, form feed). -/
def isPySpace (c : Char) : Bool :=
  c = ' ' || c = '\t' || c = '\n' || c = '\r' || c.toNat = 11 || c.toNat = 12

/-- Python `str.strip()`: drop leading and trailing whitespace. -/
def pyStrip (s : String) : String :=
  String.mk (((s.data.dropWhile isPySpace).reverse.dropWhile isPySpace).reverse)

/-- Lowercasing of one character (ASCII, which covers every tag the
scripts compare). -/
def pyLowerChar (c : Char) : Char :=
  if 65 ≤ c.toNat ∧ c.toNat ≤ 90 then Char.ofNat (c.toNat + 32) else c

/-- Python `str.lower()` (ASCII). -/
def pyLower (s : String) : String := String.mk (s.data.map pyLowerChar)

/-- Python `str.replace(" ", "")`: remove every space character. -/
def removeSpaces (s : String) : String :=
  String.mk (s.data.filter (fun c => c ≠ ' '))

/-- Whether one character list is a prefix of another. -/
def charsStart : List Char → List Char → Bool
  | [], _ => true
  | _ :: _, [] => false
  | a :: as, b :: bs => a = b && charsStart as bs

/-- Python `str.startswith(pre)`. -/
def strStarts (s pre : String) : Bool := charsStart pre.data s.data

/-- Python `str.endswith(suf)`. -/
def strEnds (s suf : String) : Bool :=
  charsStart suf.data.reverse s.data.reverse

/-- Python `set.add` / guarded `list.append`: append `x` unless present. -/
def appendIfAbsent (l : List String) (x : String) : List String :=
  if x ∈ l then l else l ++ [x]

/-- Python dict assignment `d[k] = v`: keeps the position of the first
insertion of `k`, overwrites the stored value. -/
def dictInsert {α : Type} (d : List (String × α)) (k : String) (v : α) :
    List (String × α) :=
  if k ∈ d.map Prod.fst then
    d.map (fun p => if p.1 = k then (k, v) else p)
  else d ++ [(k, v)]

/-- Python `d.get(k)`: the value stored for `k`, if any. -/
def dictGet {α : Type} (d : List (String × α)) (k : String) : Option α :=
  (d.find? (fun p => p.1 = k)).map Prod.snd

/-- Python `x or y` on strings (empty string is falsy). -/
def pyOrS (a b : String) : String := if a ≠ "" then a else b

/-!  JSON-like values (`Val`), Python truthiness, and the `_to_str`
stringification rule shared verbatim by both scripts. -/

mutual
/-- A JSON-like Python value: `None`, scalar, list or dict. -/
inductive Val : Type where
  | vnull : Val
  | vstr : String → Val
  | vint : Int → Val
  | vbool : Bool → Val
  | vlist : ValList → Val
  | vdict : ValDict → Val

/-- A list of JSON-like values. -/
inductive ValList : Type where
  | nil : ValList
  | cons : Val → ValList → ValList

/-- A dict of JSON-like values (keys in insertion order, no duplicates in
any dict Python can produce; lookup takes the first match). -/
inductive ValDict : Type where
  | nil : ValDict
  | cons : String → Val → ValDict → ValDict
end

/-- Python truthiness of a JSON-like value. -/
def pyTruthy : Val → Bool
  | .vnull => false
  | .vstr s => s ≠ ""
  | .vint n => n ≠ 0
  | .vbool b => b
  | .vlist .nil => false
  | .vlist (.cons _ _) => true
  | .vdict .nil => false
  | .vdict (.cons _ _ _) => true

/-- Python `x or y` on JSON-like values. -/
def pyOrV (a b : Val) : Val := if pyTruthy a then a else b

/-- Python `d.get(k)` on a JSON-like dict (first matching key). -/
def vdictGet : ValDict → String → Option Val
  | .nil, _ => none
  | .cons k v rest, key => if k = key then some v else vdictGet rest key

/-- One lowercase hex digit character for a value below 16. -/
def hexDigit (n : Nat) : Char :=
  if n < 10 then Char.ofNat (48 + n) else Char.ofNat (97 + (n - 10))

/-- JSON string escaping as `json.dumps` performs it (`ensure_ascii=False`:
non-ASCII characters are kept as-is). -/
def jsonEscapeChar (c : Char) : List Char :=
  if c = '"' then ['\\', '"']
  else if c = '\\' then ['\\', '\\']
  else if c = '\n' then ['\\', 'n']
  else if c = '\t' then ['\\', 't']
  else if c = '\r' then ['\\', 'r']
  else if c.toNat < 32 then
    ['\\', 'u', '0', '0', hexDigit (c.toNat / 16), hexDigit (c.toNat % 16)]
  else [c]

/-- JSON encoding of a string literal. -/
def jsonQuote (s : String) : String :=
  "\"" ++ String.mk (s.data.flatMap jsonEscapeChar) ++ "\""

mutual
/-- Compact textual encoding of a whole structure: `json.dumps(v)` with
Python's default separators. -/
def jsonDumps : Val → String
  | .vnull => "null"
  | .vstr s => jsonQuote s
  | .vint n => toString n
  | .vbool b => if b then "true" else "false"
  | .vlist .nil => "[]"
  | .vlist (.cons v rest) => "[" ++ jsonDumps v ++ jsonDumpsList rest ++ "]"
  | .vdict .nil => "\x7b\x7d"
  | .vdict (.cons k v rest) =>
      "\x7b" ++ jsonQuote k ++ ": " ++ jsonDumps v ++ jsonDumpsDict rest ++ "\x7d"

/-- Remaining elements of a JSON list, each preceded by `", "`. -/
def jsonDumpsList : ValList → String
  | .nil => ""
  | .cons v rest => ", " ++ jsonDumps v ++ jsonDumpsList rest

/-- Remaining entries of a JSON dict, each preceded by `", "`. -/
def jsonDumpsDict : ValDict → String
  | .nil => ""
  | .cons k v rest => ", " ++ jsonQuote k ++ ": " ++ jsonDumps v ++ jsonDumpsDict rest
end

/-- The human-label keys `_to_str` probes first, in source order
(CASE-CTDL.py line 25 = CASEpathways line 23). -/
def labelKeys : List String :=
  ["title", "name", "label", "value", "text", "displayName", "shortName"]

/-- The identifier-like keys `_to_str` probes second, in source order
(CASE-CTDL.py line 28 = CASEpathways line 26). -/
def srcIdKeys : List String :=
  ["uri", "CFItemURI", "CFDocumentURI", "identifier", "CFItemGUID"]

/-- First entry of a processed dict matching key `k` (dict lookup on the
triples produced by `dictStrsWith`). -/
def entryLookup (ps : List (String × String × Bool)) (k : String) :
    Option (String × Bool) :=
  (ps.find? (fun e => e.1 = k)).map Prod.snd

/-- First key of `keys` whose processed entry exists and was truthy,
yielding its stringification. -/
def findFirstKey (keys : List String) (ps : List (String × String × Bool)) :
    Option String :=
  keys.findSome? (fun k =>
    (entryLookup ps k).bind (fun e => if e.2 then some e.1 else none))

mutual
/-- The `_to_str` rule of both scripts, parameterised by the identifier-like
key priority list `idk` (the source uses `srcIdKeys`).  Scalars stringify
directly; `None` becomes `""`; lists join their stringified non-empty
members with `"; "`; dicts return the first truthy human-label key's
stringified value, else the first truthy `idk` key's, else `json.dumps`. -/
def vToStrWith (idk : List String) : Val → String
  | .vnull => ""
  | .vstr s => s
  | .vint n => toString n
  | .vbool b => if b then "True" else "False"
  | .vlist xs =>
      String.intercalate "; " ((listStrsWith idk xs).filter (fun s => s ≠ ""))
  | .vdict d =>
      match findFirstKey labelKeys (dictStrsWith idk d) with
      | some s => s
      | none =>
          match findFirstKey idk (dictStrsWith idk d) with
          | some s => s
          | none => jsonDumps (.vdict d)

/-- Stringification of every member of a list. -/
def listStrsWith (idk : List String) : ValList → List String
  | .nil => []
  | .cons v rest => vToStrWith idk v :: listStrsWith idk rest

/-- Each dict entry with its stringification and its Python truthiness. -/
def dictStrsWith (idk : List String) : ValDict → List (String × String × Bool)
  | .nil => []
  | .cons k v rest => (k, vToStrWith idk v, pyTruthy v) :: dictStrsWith idk rest
end

/-- The scripts' `_to_str` (CASE-CTDL.py lines 16-32, identical in
CASEpathways-CTDLLearningPrograms.py lines 14-30). -/
def vToStr : Val → String := vToStrWith srcIdKeys

/-- The identifier-like key order the specification describes:
document-uri before item-uri. -/
def specIdKeys : List String :=
  ["uri", "CFDocumentURI", "CFItemURI", "identifier", "CFItemGUID"]

/-- Stringification following the specification's stated key priority
(differs from `vToStr` only in the identifier-like key order). -/
def specToStr : Val → String := vToStrWith specIdKeys

/-- The value of the first key of `keys` present in `d` with a truthy value
(direct formulation over the raw dict, used to state claims). -/
def firstTruthyKey (d : ValDict) (keys : List String) : Option Val :=
  keys.findSome? (fun k =>
    (vdictGet d k).bind (fun v => if pyTruthy v then some v else none))

/-- The members of a JSON-like list, as a Lean list. -/
def toListV : ValList → List Val
  | .nil => []
  | .cons v rest => v :: toListV rest

/-!  Raw items and the item index (CASE-CTDL.py lines 74-82, identical in
CASEpathways lines 132-143). -/

/-- A raw CASE item, with the fields the scripts read.  `identifier`,
`CFItemGUID`, `uri` and `CFItemURI` are strings in CASE documents, so they
are modelled as optional strings (`none` = key absent). -/
structure RawItem : Type where
  identifier : Option String := none
  CFItemGUID : Option String := none
  CFItemType : Val := .vnull
  fullStatement : Val := .vnull
  abbreviatedStatement : Val := .vnull
  notes : Val := .vnull
  humanCodingScheme : Val := .vnull
  listEnumInSource : Option Val := none
  uri : Option String := none
  CFItemURI : Option String := none

/-- `str(it.get("identifier") or it.get("CFItemGUID") or "").strip()`. -/
def itemIdent (it : RawItem) : String :=
  pyStrip (pyOrS (it.identifier.getD "") (pyOrS (it.CFItemGUID.getD "") ""))

/-- `it.get("uri") or it.get("CFItemURI") or ""`. -/
def uriOfItem (it : RawItem) : String :=
  pyOrS (it.uri.getD "") (pyOrS (it.CFItemURI.getD "") "")

/-- `is_course` (CASE-CTDL.py line 34, CASEpathways line 33). -/
def is_course (it : RawItem) : Bool :=
  pyLower (pyStrip (vToStr it.CFItemType)) = "course"

/-- `is_pathway` (CASEpathways line 37). -/
def is_pathway (it : RawItem) : Bool :=
  pyLower (pyStrip (vToStr it.CFItemType)) = "pathway"

/-- One step of the item-indexing loop: skip an item whose trimmed
identifier is empty, otherwise append the identifier to the ordered list
(unconditionally) and store the item and its URI under the identifier. -/
def indexStep
    (acc : List (String × RawItem) × List String × List (String × String))
    (it : RawItem) :
    List (String × RawItem) × List String × List (String × String) :=
  let ident := itemIdent it
  if ident = "" then acc
  else
    (dictInsert acc.1 ident it, acc.2.1 ++ [ident],
      dictInsert acc.2.2 ident (uriOfItem it))

/-- The item index: `item_by_ident`, `ordered_idents`, `item_uri_by_ident`
(CASE-CTDL.py lines 74-82, CASEpathways lines 132-143). -/
def buildIndex (items : List RawItem) :
    List (String × RawItem) × List String × List (String × String) :=
  items.foldl indexStep ([], [], [])

/-!  Registry identifiers (CASE-CTDL.py lines 45-57, CASEpathways 49-62). -/

/-- The fixed registry-prefix normalisation `ident if ident.startswith("ce-")
else "ce-" + ident` applied throughout both scripts. -/
def ceTag (s : String) : String :=
  if strStarts s "ce-" then s else "ce-" ++ s

/-- `reg_id` (CASE-CTDL.py lines 45-49, CASEpathways lines 49-53). -/
def reg_id (base ctid : String) : String :=
  let ctid := ceTag ctid
  let base := if strEnds base "/" then base else base ++ "/"
  base ++ ctid

/-- `DEFAULT_REG_BASE`. -/
def DEFAULT_REG_BASE : String := "https://credentialengineregistry.org/resources/"

/-- `is_registry_ce_uri` on a string value (CASE-CTDL.py lines 51-57). -/
def is_registry_ce_uri (reg_base value : String) : Bool :=
  strStarts value "http" && strStarts value (reg_base ++ "ce-")

/-!  Associations and the adjacency graph (CASE-CTDL.py lines 84-112,
CASEpathways lines 145-184).  Both scripts build the same `children_of`;
the pathways script additionally maintains `parents_of`, the courses script
additionally maintains `seq_for_child`; the model carries all three. -/

/-- An association endpoint: either a bare string or an embedded object
carrying `identifier` / `CFItemGUID` keys. -/
inductive Endpoint : Type where
  | epStr : String → Endpoint
  | epObj : Option String → Option String → Endpoint

/-- Python truthiness of an endpoint value (a dict is falsy iff empty). -/
def epTruthy : Endpoint → Bool
  | .epStr s => s ≠ ""
  | .epObj i g => i.isSome || g.isSome

/-- Python `x or y` over the two endpoint fields of an association. -/
def pyOrEp : Option Endpoint → Option Endpoint → Option Endpoint
  | some e, b => if epTruthy e then some e else b
  | none, b => b

/-- A raw CASE association with the fields the scripts read.
`sequenceNumber` is modelled as its stringified form. -/
structure RawAssoc : Type where
  associationType : Val := .vnull
  destinationNodeURI : Option Endpoint := none
  destinationNodeIdentifier : Option Endpoint := none
  originNodeURI : Option Endpoint := none
  originNodeIdentifier : Option Endpoint := none
  sequenceNumber : Option String := none

/-- Membership of an identifier in `item_by_ident`. -/
def isIndexed (index : List (String × RawItem)) (s : String) : Bool :=
  (dictGet index s).isSome

/-- `resolve_endpoint` (CASE-CTDL.py lines 85-92, CASEpathways 145-152):
resolve by GUID only, yielding an identifier known to the index or `none`. -/
def resolve_endpoint (index : List (String × RawItem)) :
    Option Endpoint → Option String
  | none => none
  | some (.epObj i g) =>
      let ident := pyStrip (pyOrS (i.getD "") (pyOrS (g.getD "") ""))
      if isIndexed index ident then some ident else none
  | some (.epStr s) =>
      let s := pyStrip s
      if isIndexed index s then some s else none

/-- `is_childof_type` (CASE-CTDL.py lines 94-96, CASEpathways 154-156). -/
def is_childof_type (t : Val) : Bool :=
  let t := removeSpaces (pyLower (pyStrip (vToStr t)))
  t = "ischildof" || t = "ispartof"

/-- The adjacency structure both scripts build from the associations. -/
structure Adjacency : Type where
  childrenOf : String → List String
  parentsOf : String → List String
  seqFor : String → Option String

/-- The empty adjacency structure. -/
def emptyAdjacency : Adjacency :=
  { childrenOf := fun _ => [], parentsOf := fun _ => [], seqFor := fun _ => none }

/-- One step of the association loop (CASE-CTDL.py lines 101-112,
CASEpathways lines 172-184): skip non-child-of kinds and associations
either endpoint of which does not resolve; otherwise add the edge unless
already present, record the reverse edge likewise, and keep the first
sequence number seen for the child. -/
def assocStep (index : List (String × RawItem)) (g : Adjacency)
    (a : RawAssoc) : Adjacency :=
  if ¬ is_childof_type a.associationType then g
  else
    match resolve_endpoint index
            (pyOrEp a.destinationNodeURI a.destinationNodeIdentifier),
          resolve_endpoint index
            (pyOrEp a.originNodeURI a.originNodeIdentifier) with
    | some parent, some child =>
        { childrenOf := fun k =>
            if k = parent then appendIfAbsent (g.childrenOf parent) child
            else g.childrenOf k
          parentsOf := fun k =>
            if k = child then appendIfAbsent (g.parentsOf child) parent
            else g.parentsOf k
          seqFor := fun k =>
            if k = child then
              match g.seqFor child, a.sequenceNumber with
              | none, some s => some (pyStrip s)
              | old, _ => old
            else g.seqFor k }
    | _, _ => g

/-- The adjacency graph built from the whole association list. -/
def buildAdjacency (index : List (String × RawItem))
    (assocs : List RawAssoc) : Adjacency :=
  assocs.foldl (assocStep index) emptyAdjacency

/-!  Depth-first subtree expansion (CASE-CTDL.py lines 173-182) and the
shared-visited-set loop over the roots (lines 356-360).  The Python
recursion carries a mutated `seen` set; the model threads `seen` explicitly
(as a duplicate-free list) and carries a fuel argument: the recursion of
the source terminates because every recursive call has strictly grown
`seen`, which the fuel-stability theorem below makes precise. -/

/-- `expand_competency_subtree` with explicit fuel.  `cof` is
`children_of.get`, `comps` the set of competency identifiers, `seen` the
visited set.  Returns the ordered member list and the final visited set. -/
def expandFuel (cof : String → List String) (comps : List String) :
    Nat → String → List String → List String × List String
  | 0, _, seen => ([], seen)
  | fuel + 1, root, seen =>
    if root ∉ comps ∨ root ∈ seen then ([], seen)
    else
      (cof root).foldl
        (fun acc ch =>
          if ch ∈ comps ∧ ch ∉ acc.2 then
            let r := expandFuel cof comps fuel ch acc.2
            (acc.1 ++ r.1, r.2)
          else acc)
        ([root], root :: seen)

/-- The container loop (CASE-CTDL.py lines 356-360): one fresh, shared
visited set for all of the container's roots; each root's expansion is
concatenated onto the subtree list. -/
def expandRoots (cof : String → List String) (comps : List String)
    (fuel : Nat) (roots : List String) : List String × List String :=
  roots.foldl
    (fun acc r =>
      let res := expandFuel cof comps fuel r acc.2
      (acc.1 ++ res.1, res.2))
    ([], [])

/-- Count of competencies not yet visited; the measure the source's
recursion decreases. -/
def countUnseen (comps seen : List String) : Nat :=
  (comps.filter (fun c => ¬ c ∈ seen)).length

/-- The child-processing step of `expandFuel`'s loop, as a named function
(definitionally the loop body). -/
def expandChild (cof : String → List String) (comps : List String)
    (fuel : Nat) (acc : List String × List String) (ch : String) :
    List String × List String :=
  if ch ∈ comps ∧ ch ∉ acc.2 then
    let r := expandFuel cof comps fuel ch acc.2
    (acc.1 ++ r.1, r.2)
  else acc

/-- The root-processing step of `expandRoots`, as a named function
(definitionally the loop body). -/
def expandRootStep (cof : String → List String) (comps : List String)
    (fuel : Nat) (acc : List String × List String) (r : String) :
    List String × List String :=
  let res := expandFuel cof comps fuel r acc.2
  (acc.1 ++ res.1, res.2)

/-!  Per-framework re-parenting (CASE-CTDL.py lines 362-381): clones for
the members of the expanded subtree, local `hasChild` lists and reciprocal
accumulated `isChildOf` lists. -/

/-- The `@id` a clone of item `g` carries (CASE-CTDL.py lines 120-121,
copied into the clone by `dict(base)`). -/
def cloneId (reg_base g : String) : String := reg_id reg_base (ceTag g)

/-- `local_children` (CASE-CTDL.py line 372): the adjacency children of `g`
that are themselves members of the same container. -/
def localChildren (cof : String → List String) (members : List String)
    (g : String) : List String :=
  (cof g).filter (fun c => c ∈ members)

/-- The `ceasn:hasChild` list of a member clone (CASE-CTDL.py line 374):
the `@id`s of its local children (empty when the key is not set). -/
def hasChildIds (cof : String → List String) (members : List String)
    (reg_base g : String) : List String :=
  (localChildren cof members g).map (cloneId reg_base)

/-- The accumulated `ceasn:isChildOf` lists (CASE-CTDL.py lines 375-381):
iterate the members in order; each member appends its own `@id` to every
local child's parent list unless already present. -/
def isChildOfLists (cof : String → List String) (members : List String)
    (reg_base : String) : String → List String :=
  members.foldl
    (fun acc g =>
      (localChildren cof members g).foldl
        (fun acc2 c => fun k =>
          if k = c then appendIfAbsent (acc2 c) (cloneId reg_base g)
          else acc2 k)
        acc)
    (fun _ => [])

/-!  Pathway → LearningProgram aggregation
(CASEpathways-CTDLLearningPrograms.py lines 158-167 and 277-303). -/

/-- The classified course identifiers (CASEpathways lines 158-167): the
indexed identifiers, in order, whose item's type tag is `course`
(`set.add` modelled as append-unless-present). -/
def classifyCourseIdents (index : List (String × RawItem))
    (ordered : List String) : List String :=
  ordered.foldl
    (fun acc i =>
      match dictGet index i with
      | some it => if is_course it then appendIfAbsent acc i else acc
      | none => acc)
    []

/-- `course_targets` (CASEpathways lines 277-287): the set of course
children of the pathway's parents, together with the pathway's own direct
course children (a Python `set`, modelled as a duplicate-free list). -/
def courseTargets (g : Adjacency) (courseIdents : List String)
    (p : String) : List String :=
  let s1 := (g.parentsOf p).foldl
    (fun acc parent =>
      (g.childrenOf parent).foldl
        (fun acc2 c => if c ∈ courseIdents then appendIfAbsent acc2 c else acc2)
        acc)
    []
  (g.childrenOf p).foldl
    (fun acc c => if c ∈ courseIdents then appendIfAbsent acc c else acc)
    s1

/-- Lexicographic code-point comparison of character lists (how Python
compares strings). -/
def charsLe : List Char → List Char → Bool
  | [], _ => true
  | _ :: _, [] => false
  | a :: as, b :: bs => if a = b then charsLe as bs else decide (a < b)

/-- Python string comparison `a <= b`. -/
def pyStrLe (a b : String) : Bool := charsLe a.data b.data

/-- Python `sorted` on distinct strings (ascending code-point order). -/
def sortStrings (l : List String) : List String :=
  l.insertionSort (fun a b => pyStrLe a b = true)

/-- `target_course_uris` (CASEpathways lines 290-294): the sorted course
targets rendered as registry URIs. -/
def targetCourseUris (reg_base : String) (g : Adjacency)
    (courseIdents : List String) (p : String) : List String :=
  (sortStrings (courseTargets g courseIdents p)).map
    (fun cid => reg_id reg_base (ceTag cid))

/-!  Deterministic synthetic framework identifiers (CASE-CTDL.py lines
320-326): `uuid.uuid5(uuid.NAMESPACE_URL, "framework:" + course_ctid)`.
`uuid5` is SHA-1 over the namespace bytes followed by the UTF-8 name, with
the version/variant bits forced; it is embedded here in full, on `Nat`
with explicit reduction modulo `2 ^ 32`. -/

/-- `2 ^ 32`. -/
def M32 : Nat := 4294967296

/-- Left rotation of a 32-bit word by `n` bits. -/
def rotl32 (n x : Nat) : Nat := ((x <<< n) % M32) ||| (x >>> (32 - n))

/-- UTF-8 encoding of one character. -/
def utf8Char (c : Char) : List Nat :=
  let n := c.toNat
  if n < 128 then [n]
  else if n < 2048 then [192 ||| (n >>> 6), 128 ||| (n &&& 63)]
  else if n < 65536 then
    [224 ||| (n >>> 12), 128 ||| ((n >>> 6) &&& 63), 128 ||| (n &&& 63)]
  else
    [240 ||| (n >>> 18), 128 ||| ((n >>> 12) &&& 63),
     128 ||| ((n >>> 6) &&& 63), 128 ||| (n &&& 63)]

/-- UTF-8 encoding of a string, as `str.encode("utf-8")`. -/
def utf8Bytes (s : String) : List Nat := s.data.flatMap utf8Char

/-- Big-endian bytes of `n`, `k` bytes wide. -/
def natToBytesBE : Nat → Nat → List Nat
  | 0, _ => []
  | k + 1, n => natToBytesBE k (n / 256) ++ [n % 256]

/-- SHA-1 padding: append `0x80`, zero bytes to 56 mod 64, then the
original bit length as 8 big-endian bytes. -/
def sha1Pad (msg : List Nat) : List Nat :=
  let len := msg.length
  let zeros := (120 - ((len + 1) % 64)) % 64
  msg ++ [128] ++ List.replicate zeros 0 ++ natToBytesBE 8 (8 * len)

/-- Split a byte list into 64-byte chunks (fuel-driven; `fuel ≥ length`
always suffices). -/
def chunks64 : Nat → List Nat → List (List Nat)
  | 0, _ => []
  | _, [] => []
  | fuel + 1, l => l.take 64 :: chunks64 fuel (l.drop 64)

/-- Pack bytes into big-endian 32-bit words. -/
def bytesToWords : List Nat → List Nat
  | b0 :: b1 :: b2 :: b3 :: rest =>
      (((b0 * 256 + b1) * 256 + b2) * 256 + b3) :: bytesToWords rest
  | _ => []

/-- Extend the 16 schedule words to 80:
`w[i] = rotl1 (w[i-3] xor w[i-8] xor w[i-14] xor w[i-16])`. -/
def extendW (w : List Nat) : Nat → List Nat
  | 0 => w
  | k + 1 =>
      let i := w.length
      let x := rotl32 1 (((w.get? (i - 3)).getD 0 ^^^ (w.get? (i - 8)).getD 0)
        ^^^ ((w.get? (i - 14)).getD 0 ^^^ (w.get? (i - 16)).getD 0))
      extendW (w ++ [x]) k

/-- One SHA-1 round: state `(a, b, c, d, e)`, round index `i`, schedule
word `wi`. -/
def sha1Round (i : Nat) (st : Nat × Nat × Nat × Nat × Nat) (wi : Nat) :
    Nat × Nat × Nat × Nat × Nat :=
  let (a, b, c, d, e) := st
  let f :=
    if i < 20 then (b &&& c) ||| ((b ^^^ (M32 - 1)) &&& d)
    else if i < 40 then b ^^^ c ^^^ d
    else if i < 60 then (b &&& c) ||| (b &&& d) ||| (c &&& d)
    else b ^^^ c ^^^ d
  let k :=
    if i < 20 then 1518500249
    else if i < 40 then 1859775393
    else if i < 60 then 2400959708
    else 3395469782
  let temp := (rotl32 5 a + f + e + k + wi) % M32
  (temp, a, rotl32 30 b, c, d)

/-- Process one 64-byte chunk into the running hash state. -/
def sha1Chunk (h : Nat × Nat × Nat × Nat × Nat) (chunk : List Nat) :
    Nat × Nat × Nat × Nat × Nat :=
  let w := extendW (bytesToWords chunk) 64
  let (a, b, c, d, e) :=
    w.enum.foldl (fun st p => sha1Round p.1 st p.2) h
  ((h.1 + a) % M32, (h.2.1 + b) % M32, (h.2.2.1 + c) % M32,
    (h.2.2.2.1 + d) % M32, (h.2.2.2.2 + e) % M32)

/-- Big-endian bytes of one 32-bit word. -/
def wordToBytes (w : Nat) : List Nat :=
  [w / 16777216 % 256, w / 65536 % 256, w / 256 % 256, w % 256]

/-- The 20-byte SHA-1 digest of a byte list. -/
def sha1Bytes (msg : List Nat) : List Nat :=
  let padded := sha1Pad msg
  let h := (chunks64 padded.length padded).foldl sha1Chunk
    (1732584193, 4023233417, 2562383102, 271733878, 3285377520)
  wordToBytes h.1 ++ wordToBytes h.2.1 ++ wordToBytes h.2.2.1
    ++ wordToBytes h.2.2.2.1 ++ wordToBytes h.2.2.2.2

/-- The 16 bytes of `uuid.NAMESPACE_URL`
(6ba7b811-9dad-11d1-80b4-00c04fd430c8). -/
def NAMESPACE_URL_BYTES : List Nat :=
  [107, 167, 184, 17, 157, 173, 17, 209, 128, 180, 0, 192, 79, 212, 48, 200]

/-- The 16 bytes of `uuid.NAMESPACE_DNS`
(6ba7b810-9dad-11d1-80b4-00c04fd430c8), used only as a test vector. -/
def NAMESPACE_DNS_BYTES : List Nat :=
  [107, 167, 184, 16, 157, 173, 17, 209, 128, 180, 0, 192, 79, 212, 48, 200]

/-- The 16 bytes of `uuid.uuid5(ns, name)`: the first 16 SHA-1 bytes of
namespace-plus-name with the version forced to 5 and the RFC 4122 variant
set. -/
def uuid5Bytes (ns : List Nat) (name : String) : List Nat :=
  let d := (sha1Bytes (ns ++ utf8Bytes name)).take 16
  d.enum.map (fun p =>
    if p.1 = 6 then (p.2 &&& 15) ||| 80
    else if p.1 = 8 then (p.2 &&& 63) ||| 128
    else p.2)

/-- Lowercase hex characters of a byte list. -/
def bytesToHexChars (bs : List Nat) : List Char :=
  bs.flatMap (fun b => [hexDigit (b / 16), hexDigit (b % 16)])

/-- `uuid.uuid5(ns, name).hex`: 32 lowercase hex characters. -/
def uuid5Hex (ns : List Nat) (name : String) : List Char :=
  bytesToHexChars (uuid5Bytes ns name)

/-- The dashed tail of the synthetic framework CTID: the 8-4-4-4-12
regrouping of the 32 hex characters. -/
def dashedHex (hx : List Char) : List Char :=
  hx.take 8 ++ '-' :: ((hx.drop 8).take 4) ++ '-' :: ((hx.drop 12).take 4)
    ++ '-' :: ((hx.drop 16).take 4) ++ '-' :: (hx.drop 20)

/-- The synthetic framework CTID for a course CTID (CASE-CTDL.py lines
324-325): `ce-` followed by the dashed `uuid5(NAMESPACE_URL,
"framework:" + course_ctid)` hex. -/
def frameworkCtid (course_ctid : String) : String :=
  String.mk ('c' :: 'e' :: '-' ::
    dashedHex (uuid5Hex NAMESPACE_URL_BYTES ("framework:" ++ course_ctid)))

/-- The framework CTID generated for the course built from item `it`
(whose course CTID is its tagged identifier, CASE-CTDL.py line 120). -/
def frameworkCtidFor (it : RawItem) : String :=
  frameworkCtid (ceTag (itemIdent it))

/-!  Course nodes and their validation (CASE-CTDL.py lines 118-143,
279-315 and 418-421).  A course node's key set is closed, so the node is a
structure; an `Option` field set to `none` is an absent key.
`ceterms:teaches` is not modelled: `validate_course` never reads it. -/

/-- A possibly language-tagged text value: `{fw_lang: text}` when a
document language is known, plain text otherwise. -/
inductive LangText : Type where
  | plain : String → LangText
  | tagged : String → String → LangText

/-- Whether `fw_lang` is truthy (`if fw_lang:`): present and non-empty. -/
def langTruthy : Option String → Bool
  | none => false
  | some l => l ≠ ""

/-- `{fw_lang: s} if fw_lang else s`. -/
def mkLang (fwLang : Option String) (s : String) : LangText :=
  if langTruthy fwLang then .tagged (fwLang.getD "") s else .plain s

/-- The truth of `not nm or (isinstance(nm, dict) and not any(nm.values()))`
negated: a present name/description value that is non-empty (for a language
map, has some non-empty value). -/
def ltTruthy : Option LangText → Bool
  | none => false
  | some (.plain s) => s ≠ ""
  | some (.tagged _ s) => s ≠ ""

/-- Python truthiness of an optional string field. -/
def osTruthy : Option String → Bool
  | none => false
  | some s => s ≠ ""

/-- Python truthiness of an optional JSON-like field. -/
def ovTruthy : Option Val → Bool
  | none => false
  | some v => pyTruthy v

/-- A built course node (CASE-CTDL.py lines 128-143). -/
structure CourseNode : Type where
  atid : String
  ctid : String
  inLanguage : Option String
  name : Option LangText
  description : Option LangText
  codedNotation : Option String
  subjectWebpage : Option String
  lifeCycleStatusType : Option Val
  ownedBy : Option Val
  offeredBy : Option Val

/-- The course name: `_to_str(it.get("abbreviatedStatement") or
it.get("fullStatement") or "").strip()` (line 126). -/
def courseName (it : RawItem) : String :=
  (vToStr (pyOrV it.abbreviatedStatement
    (pyOrV it.fullStatement (.vstr ""))))

/-- The course description: `_to_str(it.get("fullStatement") or "").strip()`
(line 127). -/
def courseDesc (it : RawItem) : String :=
  pyStrip (vToStr (pyOrV it.fullStatement (.vstr "")))

/-- Build the course node for indexed item `it` under identifier `ident`
with source URI `uriStr` (CASE-CTDL.py lines 118-143).  The builder never
sets `ceterms:lifeCycleStatusType`, `ceterms:ownedBy` or
`ceterms:offeredBy`. -/
def buildCourseNode (reg_base : String) (fwLang : Option String)
    (it : RawItem) (ident : String) (uriStr : String) : CourseNode :=
  let ce_ctid := ceTag ident
  let name := courseName it
  let desc := courseDesc it
  let hcs := pyStrip (vToStr it.humanCodingScheme)
  { atid := reg_id reg_base ce_ctid
    ctid := ce_ctid
    inLanguage := if langTruthy fwLang then fwLang else none
    name := if name ≠ "" then some (mkLang fwLang name) else none
    description :=
      if desc ≠ "" ∧ desc ≠ name then some (mkLang fwLang desc) else none
    codedNotation := if hcs ≠ "" then some hcs else none
    subjectWebpage := if uriStr ≠ "" then some uriStr else none
    lifeCycleStatusType := none
    ownedBy := none
    offeredBy := none }

/-- `_validate_org_field` (CASE-CTDL.py lines 299-310). -/
def validateOrgField (reg_base : String) (val : Option Val)
    (field : String) : List String :=
  match val with
  | none => []
  | some (.vstr s) =>
      if ¬ is_registry_ce_uri reg_base s then
        [field ++ " must be a CE registry URI"]
      else []
  | some (.vlist xs) =>
      if orgListBad reg_base xs then [field ++ " must be CE registry URI(s)"]
      else []
  | some _ => [field ++ " must be a CE registry URI (string or list)"]
where
  /-- Whether some member of the list is not a string or not a registry
  URI. -/
  orgListBad (reg_base : String) : ValList → Bool
    | .nil => false
    | .cons (.vstr s) rest =>
        (¬ is_registry_ce_uri reg_base s) || orgListBad reg_base rest
    | .cons _ rest => (true : Bool) || orgListBad reg_base rest

/-- `validate_course` (CASE-CTDL.py lines 279-315), error messages
accumulated in source order. -/
def validate_course (reg_base : String) (crs : CourseNode) : List String :=
  (if crs.ctid = "" then ["Missing ceterms:ctid"] else [])
  ++ (if ¬ ltTruthy crs.name then ["Missing ceterms:name"] else [])
  ++ (if ¬ ltTruthy crs.description then ["Missing ceterms:description"] else [])
  ++ (if ¬ osTruthy crs.inLanguage then ["Missing ceterms:inLanguage"] else [])
  ++ (if ¬ ovTruthy crs.lifeCycleStatusType then
        ["Missing ceterms:lifeCycleStatusType"] else [])
  ++ (if ¬ ovTruthy crs.ownedBy ∧ ¬ ovTruthy crs.offeredBy then
        ["Missing ceterms:ownedBy or ceterms:offeredBy (one required)"] else [])
  ++ validateOrgField reg_base crs.ownedBy "ceterms:ownedBy"
  ++ validateOrgField reg_base crs.offeredBy "ceterms:offeredBy"

/-- The `courses` store of the split loop (CASE-CTDL.py lines 114-143):
for each ordered identifier whose item is a course, build and store the
node (dict semantics, so a repeated identifier keeps its first position
and latest — identical — node). -/
def buildCourses (reg_base : String) (fwLang : Option String)
    (items : List RawItem) : List (String × CourseNode) :=
  let ix := buildIndex items
  ix.2.1.foldl
    (fun acc ident =>
      match dictGet ix.1 ident with
      | some it =>
          if is_course it then
            dictInsert acc ident
              (buildCourseNode reg_base fwLang it ident
                ((dictGet ix.2.2 ident).getD ""))
          else acc
      | none => acc)
    []

/-- The validation report's `courses` list (CASE-CTDL.py lines 236-241 and
418-421): one `(@id, errors)` entry per course whose validator returned a
non-empty error list. -/
def coursesReport (reg_base : String) (nodes : List CourseNode) :
    List (String × List String) :=
  nodes.foldl
    (fun acc c =>
      let errs := validate_course reg_base c
      if errs = [] then acc else acc ++ [(c.atid, errs)])
    []

/-!  A small concrete document used by witnesses: a pathway `pw` below two
parent items `p1`, `p2`, each of which also exposes a sibling course. -/

/-- Sample items: a pathway, two parents and two sibling courses. -/
def sampleItems : List RawItem :=
  [{ identifier := some "pw", CFItemType := .vstr "Pathway" },
   { identifier := some "p1" },
   { identifier := some "p2" },
   { identifier := some "c1", CFItemType := .vstr "Course" },
   { identifier := some "c2", CFItemType := .vstr "Course" }]

/-- Sample associations: `pw` is a child of both parents; each parent has
one sibling course child. -/
def sampleAssocs : List RawAssoc :=
  [{ associationType := .vstr "isChildOf",
     destinationNodeURI := some (.epStr "p1"),
     originNodeURI := some (.epStr "pw") },
   { associationType := .vstr "isChildOf",
     destinationNodeURI := some (.epStr "p2"),
     originNodeURI := some (.epStr "pw") },
   { associationType := .vstr "isChildOf",
     destinationNodeURI := some (.epStr "p1"),
     originNodeURI := some (.epStr "c1") },
   { associationType := .vstr "isChildOf",
     destinationNodeURI := some (.epStr "p2"),
     originNodeURI := some (.epStr "c2") }]

/-- The adjacency graph of the sample document. -/
def sampleAdjacency : Adjacency :=
  buildAdjacency (buildIndex sampleItems).1 sampleAssocs

/-- The classified course identifiers of the sample document. -/
def sampleCourses : List String :=
  classifyCourseIdents (buildIndex sampleItems).1 (buildIndex sampleItems).2.1

/-!  Lemmas: duplicate-free append, dict semantics, `_to_str`. -/

theorem mem_appendIfAbsent (l : List String) (x y : String) :
    y ∈ appendIfAbsent l x ↔ y ∈ l ∨ y = x := by
  by_cases h : x ∈ l <;> simp only [appendIfAbsent, if_pos, if_neg, h,
    ite_true, ite_false, List.mem_append, List.mem_singleton]
  exact ⟨Or.inl, fun h' => h'.elim id (fun e => e ▸ h)⟩

theorem nodup_appendIfAbsent {l : List String} (x : String) (h : l.Nodup) :
    (appendIfAbsent l x).Nodup := by
  by_cases hx : x ∈ l <;> simp only [appendIfAbsent, hx, ite_true, ite_false]
  · exact h
  · exact h.append (List.nodup_singleton x)
      (by intro a ha ha'; simp only [List.mem_singleton] at ha'
          exact hx (ha' ▸ ha))

theorem appendIfAbsent_of_mem {l : List String} {x : String} (h : x ∈ l) :
    appendIfAbsent l x = l := by
  simp only [appendIfAbsent, h, ite_true]

theorem mem_foldl_addIf {P : String → Prop} [DecidablePred P] :
    ∀ (l init : List String) (x : String),
      (x ∈ l.foldl
          (fun acc c => if P c then appendIfAbsent acc c else acc) init
        ↔ x ∈ init ∨ (x ∈ l ∧ P x))
  | [], init, x => by simp
  | c :: rest, init, x => by
      by_cases hc : P c
      · simp only [List.foldl_cons, if_pos hc,
          mem_foldl_addIf rest _ x, mem_appendIfAbsent, List.mem_cons]
        constructor
        · rintro ((h | rfl) | ⟨hr, hp⟩)
          · exact Or.inl h
          · exact Or.inr ⟨Or.inl rfl, hc⟩
          · exact Or.inr ⟨Or.inr hr, hp⟩
        · rintro (h | ⟨(rfl | hr), hp⟩)
          · exact Or.inl (Or.inl h)
          · exact Or.inl (Or.inr rfl)
          · exact Or.inr ⟨hr, hp⟩
      · simp only [List.foldl_cons, if_neg hc,
          mem_foldl_addIf rest _ x, List.mem_cons]
        constructor
        · rintro (h | ⟨hr, hp⟩)
          · exact Or.inl h
          · exact Or.inr ⟨Or.inr hr, hp⟩
        · rintro (h | ⟨(rfl | hr), hp⟩)
          · exact Or.inl h
          · exact (hc hp).elim
          · exact Or.inr ⟨hr, hp⟩

theorem nodup_foldl_addIf {P : String → Prop} [DecidablePred P] :
    ∀ (l init : List String), init.Nodup →
      (l.foldl (fun acc c => if P c then appendIfAbsent acc c else acc)
        init).Nodup
  | [], _, h => h
  | c :: rest, init, h => by
      by_cases hc : P c <;>
        simp only [List.foldl_cons, if_pos, if_neg, hc, ite_true, ite_false]
      · exact nodup_foldl_addIf rest _ (nodup_appendIfAbsent c h)
      · exact nodup_foldl_addIf rest _ h

theorem find?_map_overwrite_ne {α : Type} (k k' : String) (v : α)
    (hne : k' ≠ k) :
    ∀ d : List (String × α),
      (d.map (fun p => if p.1 = k then (k, v) else p)).find?
          (fun p => p.1 = k')
        = d.find? (fun p => p.1 = k')
  | [] => rfl
  | p :: rest => by
      by_cases hp : p.1 = k
      · rw [List.map_cons, if_pos hp,
          List.find?_cons_of_neg _
            (by simp only [decide_eq_true_eq]; exact fun e => hne e.symm),
          List.find?_cons_of_neg _
            (by simp only [decide_eq_true_eq, hp]; exact fun e => hne e.symm)]
        exact find?_map_overwrite_ne k k' v hne rest
      · rw [List.map_cons, if_neg hp]
        by_cases hq : p.1 = k'
        · rw [List.find?_cons_of_pos _ (by simp only [decide_eq_true_eq]; exact hq),
            List.find?_cons_of_pos _ (by simp only [decide_eq_true_eq]; exact hq)]
        · rw [List.find?_cons_of_neg _ (by simp only [decide_eq_true_eq]; exact hq),
            List.find?_cons_of_neg _ (by simp only [decide_eq_true_eq]; exact hq)]
          exact find?_map_overwrite_ne k k' v hne rest

theorem find?_map_overwrite_mem {α : Type} (k : String) (v : α) :
    ∀ d : List (String × α), k ∈ d.map Prod.fst →
      (d.map (fun p => if p.1 = k then (k, v) else p)).find?
          (fun p => p.1 = k)
        = some (k, v)
  | [], h => by simp at h
  | p :: rest, h => by
      by_cases hp : p.1 = k
      · rw [List.map_cons, if_pos hp,
          List.find?_cons_of_pos _ (by simp only [decide_eq_true_eq])]
      · simp only [List.map_cons, List.mem_cons] at h
        have h' : k ∈ rest.map Prod.fst := by
          rcases h with h | h
          · exact absurd h.symm hp
          · exact h
        rw [List.map_cons, if_neg hp,
          List.find?_cons_of_neg _ (by simp only [decide_eq_true_eq]; exact hp)]
        exact find?_map_overwrite_mem k v rest h'

theorem dictGet_dictInsert {α : Type} (d : List (String × α))
    (k k' : String) (v : α) :
    dictGet (dictInsert d k v) k'
      = if k' = k then some v else dictGet d k' := by
  unfold dictInsert dictGet
  by_cases hk : k ∈ d.map Prod.fst <;>
    simp only [hk, ite_true, ite_false]
  · by_cases he : k' = k
    · rw [if_pos he, he, find?_map_overwrite_mem k v d hk]
      rfl
    · rw [if_neg he, find?_map_overwrite_ne k k' v he d]
  · by_cases he : k' = k
    · subst he
      have hnone : d.find? (fun p => p.1 = k') = none := by
        rw [List.find?_eq_none]
        intro p hp
        simp only [decide_eq_true_eq]
        exact fun e => hk (e ▸ List.mem_map_of_mem Prod.fst hp)
      have hone : ([(k', v)].find? (fun p => p.1 = k')) = some (k', v) :=
        List.find?_cons_of_pos _ (by simp only [decide_eq_true_eq])
      rw [if_pos rfl, List.find?_append, hnone, hone]
      rfl
    · have h2 : ([(k, v)].find? (fun p => p.1 = k')) = none := by
        rw [List.find?_cons_of_neg _
          (by simp only [decide_eq_true_eq]; exact fun e => he e.symm)]
        rfl
      rw [if_neg he, List.find?_append, h2, Option.or_none]

theorem toListV_listStrs (idk : List String) : ∀ xs : ValList,
    listStrsWith idk xs = (toListV xs).map (vToStrWith idk)
  | .nil => rfl
  | .cons v rest => by
      simp only [listStrsWith, toListV, List.map_cons,
        toListV_listStrs idk rest]

theorem entryLookup_dictStrs (idk : List String) (k : String) :
    ∀ d : ValDict,
      entryLookup (dictStrsWith idk d) k
        = (vdictGet d k).map (fun v => (vToStrWith idk v, pyTruthy v))
  | .nil => rfl
  | .cons k' v rest => by
      by_cases hk : k' = k
      · subst hk
        simp only [dictStrsWith, entryLookup, vdictGet, if_pos rfl]
        rw [List.find?_cons_of_pos _ (by simp only [decide_eq_true_eq])]
        rfl
      · have ih := entryLookup_dictStrs idk k rest
        simp only [entryLookup] at ih
        simp only [dictStrsWith, entryLookup, vdictGet, hk, ite_false]
        rw [List.find?_cons_of_neg _ (by simp only [decide_eq_true_eq]; exact hk)]
        exact ih

theorem findFirstKey_dictStrs (idk : List String) (d : ValDict) :
    ∀ keys : List String,
      findFirstKey keys (dictStrsWith idk d)
        = (firstTruthyKey d keys).map (vToStrWith idk)
  | [] => rfl
  | k :: ks => by
      have ih := findFirstKey_dictStrs idk d ks
      simp only [findFirstKey, firstTruthyKey, List.findSome?_cons] at ih ⊢
      rw [entryLookup_dictStrs]
      cases h : vdictGet d k with
      | none => simpa using ih
      | some v =>
          by_cases ht : pyTruthy v <;>
            simp [ht, ih]

theorem vToStrWith_vdict (idk : List String) (d : ValDict) :
    vToStrWith idk (.vdict d)
      = match firstTruthyKey d labelKeys with
        | some v => vToStrWith idk v
        | none =>
            match firstTruthyKey d idk with
            | some v => vToStrWith idk v
            | none => jsonDumps (.vdict d) := by
  show (match findFirstKey labelKeys (dictStrsWith idk d) with
    | some s => s
    | none =>
        match findFirstKey idk (dictStrsWith idk d) with
        | some s => s
        | none => jsonDumps (.vdict d)) = _
  rw [findFirstKey_dictStrs, findFirstKey_dictStrs]
  cases firstTruthyKey d labelKeys with
  | some v => rfl
  | none =>
      cases firstTruthyKey d idk with
      | some v => rfl
      | none => rfl

/-- Claim C5 counterexample: on a mapping carrying both `CFItemURI`
(item-uri) and `CFDocumentURI` (document-uri) and no human-label key, the
code's `_to_str` returns the `CFItemURI` value, not the `CFDocumentURI`
value the claimed priority order (uri/document-uri/item-uri/...) selects. -/
theorem toStr_idKey_order_counterexample :
    vToStr (.vdict (.cons "CFItemURI" (.vstr "ITEM")
        (.cons "CFDocumentURI" (.vstr "DOC") .nil))) = "ITEM"
  ∧ specToStr (.vdict (.cons "CFItemURI" (.vstr "ITEM")
        (.cons "CFDocumentURI" (.vstr "DOC") .nil))) = "DOC"
  ∧ vToStr (.vdict (.cons "CFItemURI" (.vstr "ITEM")
        (.cons "CFDocumentURI" (.vstr "DOC") .nil)))
      ≠ specToStr (.vdict (.cons "CFItemURI" (.vstr "ITEM")
        (.cons "CFDocumentURI" (.vstr "DOC") .nil))) := by
  refine ⟨rfl, rfl, ?_⟩
  decide

/-- Claim C5 (amended): text derivation stringifies scalars directly
(`None` becoming empty), joins a sequence's stringified non-empty members
with `"; "`, and for mapping-like values returns the first present truthy
key among title/name/label/value/text/displayName/shortName in that
order, otherwise the first present truthy key among
uri/CFItemURI/CFDocumentURI/identifier/CFItemGUID in that order (item-uri
BEFORE document-uri), otherwise the compact `json.dumps` encoding of the
whole structure. -/
theorem toStr_characterization :
    vToStr .vnull = ""
  ∧ (∀ s : String, vToStr (.vstr s) = s)
  ∧ (∀ n : Int, vToStr (.vint n) = toString n)
  ∧ (∀ b : Bool, vToStr (.vbool b) = if b then "True" else "False")
  ∧ (∀ xs : ValList,
      vToStr (.vlist xs)
        = String.intercalate "; "
            (((toListV xs).map vToStr).filter (fun s => s ≠ "")))
  ∧ (∀ d : ValDict,
      vToStr (.vdict d)
        = match firstTruthyKey d labelKeys with
          | some v => vToStr v
          | none =>
              match firstTruthyKey d srcIdKeys with
              | some v => vToStr v
              | none => jsonDumps (.vdict d)) := by
  refine ⟨rfl, fun s => rfl, fun n => rfl, fun b => rfl, fun xs => ?_,
    fun d => vToStrWith_vdict srcIdKeys d⟩
  show String.intercalate "; "
      ((listStrsWith srcIdKeys xs).filter (fun s => s ≠ "")) = _
  rw [toListV_listStrs]
  rfl

/-!  Lemmas: the item index. -/

theorem buildIndex_ordered_aux :
    ∀ (items : List RawItem)
      (acc : List (String × RawItem) × List String × List (String × String)),
      (items.foldl indexStep acc).2.1
        = acc.2.1 ++ (items.map itemIdent).filter (fun s => s ≠ "")
  | [], acc => by simp
  | it :: rest, acc => by
      by_cases h : itemIdent it = ""
      · have hstep : indexStep acc it = acc := by simp [indexStep, h]
        rw [List.foldl_cons, hstep, buildIndex_ordered_aux rest acc,
          List.map_cons, h]
        simp
      · have hstep : indexStep acc it
            = (dictInsert acc.1 (itemIdent it) it, acc.2.1 ++ [itemIdent it],
                dictInsert acc.2.2 (itemIdent it) (uriOfItem it)) := by
          simp [indexStep, h]
        rw [List.foldl_cons, hstep, buildIndex_ordered_aux rest _, List.map_cons]
        simp [h, List.filter_cons, List.append_assoc]

theorem buildIndex_get_empty :
    ∀ (items : List RawItem)
      (acc : List (String × RawItem) × List String × List (String × String)),
      dictGet acc.1 "" = none →
      dictGet (items.foldl indexStep acc).1 "" = none
  | [], _, h => h
  | it :: rest, acc, h => by
      by_cases hid : itemIdent it = ""
      · simp only [List.foldl_cons, indexStep, hid, ite_true]
        exact buildIndex_get_empty rest acc h
      · simp only [List.foldl_cons, indexStep, hid, ite_false]
        refine buildIndex_get_empty rest _ ?_
        show dictGet (dictInsert acc.1 (itemIdent it) it) "" = none
        rw [dictGet_dictInsert, if_neg (fun e => hid e.symm)]
        exact h

theorem buildIndex_get_aux (i : String) (hi : i ≠ "") :
    ∀ (items : List RawItem)
      (acc : List (String × RawItem) × List String × List (String × String)),
      dictGet (items.foldl indexStep acc).1 i
        = (items.reverse.find? (fun it => itemIdent it = i)).or
            (dictGet acc.1 i)
  | [], acc => by simp
  | it :: rest, acc => by
      rw [List.foldl_cons, buildIndex_get_aux i hi rest _, List.reverse_cons,
        List.find?_append, Option.or_assoc]
      congr 1
      by_cases hid : itemIdent it = ""
      · have hne : ¬ (itemIdent it = i) := fun e => hi (e ▸ hid)
        have h1 : ([it].find? (fun x => itemIdent x = i)) = none := by
          rw [List.find?_cons_of_neg _
            (by simp only [decide_eq_true_eq]; exact hne)]
          rfl
        have hstep : indexStep acc it = acc := by simp [indexStep, hid]
        rw [hstep, h1]
        rfl
      · have hstep : (indexStep acc it).1
            = dictInsert acc.1 (itemIdent it) it := by
          simp [indexStep, hid]
        rw [hstep, dictGet_dictInsert]
        by_cases he : itemIdent it = i
        · have h1 : ([it].find? (fun x => itemIdent x = i)) = some it :=
            List.find?_cons_of_pos _ (by simp only [decide_eq_true_eq]; exact he)
          rw [h1, if_pos he.symm]
          rfl
        · have h1 : ([it].find? (fun x => itemIdent x = i)) = none := by
            rw [List.find?_cons_of_neg _
              (by simp only [decide_eq_true_eq]; exact he)]
            rfl
          rw [h1, if_neg (fun e => he e.symm)]
          rfl

/-- Claim C4 counterexample: two raw items share the identifier `a`; the
ordered identifier sequence receives the position twice, so the
identifier's position IS duplicated. -/
theorem index_duplicate_position_counterexample :
    (buildIndex [({ identifier := some "a" } : RawItem),
        ({ identifier := some "a", notes := .vstr "x" } : RawItem)]).2.1
      = ["a", "a"]
  ∧ ¬ (buildIndex [({ identifier := some "a" } : RawItem),
        ({ identifier := some "a", notes := .vstr "x" } : RawItem)]).2.1.Nodup := by
  constructor
  · rfl
  · decide

/-- Claim C4 (amended): indexing drops items whose identifier is empty
after trimming, silently; a later item with a duplicate identifier
overwrites the stored item (lookup yields the last match); but the
identifier is appended to the ordered identifier sequence once per
surviving item, so a duplicate identifier DOES occupy a duplicate position
in the ordered sequence. -/
theorem index_characterization (items : List RawItem) :
    (buildIndex items).2.1
      = (items.map itemIdent).filter (fun s => s ≠ "")
  ∧ ∀ i : String,
      dictGet (buildIndex items).1 i
        = if i = "" then none
          else items.reverse.find? (fun it => itemIdent it = i) := by
  constructor
  · exact buildIndex_ordered_aux items ([], [], [])
  · intro i
    by_cases hi : i = ""
    · rw [if_pos hi, hi]
      exact buildIndex_get_empty items ([], [], []) rfl
    · rw [if_neg hi]
      have := buildIndex_get_aux i hi items ([], [], [])
      simpa [dictGet] using this

/-!  Lemmas: the adjacency graph. -/

theorem assocStep_cases (index : List (String × RawItem)) (g : Adjacency)
    (a : RawAssoc) :
    assocStep index g a = g
  ∨ ∃ parent child,
      resolve_endpoint index
          (pyOrEp a.destinationNodeURI a.destinationNodeIdentifier)
        = some parent
    ∧ resolve_endpoint index
          (pyOrEp a.originNodeURI a.originNodeIdentifier)
        = some child
    ∧ ((assocStep index g a).childrenOf
        = fun k =>
            if k = parent then appendIfAbsent (g.childrenOf parent) child
            else g.childrenOf k)
    ∧ ((assocStep index g a).parentsOf
        = fun k =>
            if k = child then appendIfAbsent (g.parentsOf child) parent
            else g.parentsOf k) := by
  by_cases ht : is_childof_type a.associationType
  · cases hd : resolve_endpoint index
        (pyOrEp a.destinationNodeURI a.destinationNodeIdentifier) with
    | none => left; simp [assocStep, ht, hd]
    | some parent =>
        cases ho : resolve_endpoint index
            (pyOrEp a.originNodeURI a.originNodeIdentifier) with
        | none => left; simp [assocStep, ht, hd, ho]
        | some child =>
            right
            exact ⟨parent, child, rfl, rfl,
              by simp [assocStep, ht, hd, ho],
              by simp [assocStep, ht, hd, ho]⟩
  · left; simp [assocStep, ht]

theorem foldl_assoc_children_nodup (index : List (String × RawItem)) :
    ∀ (assocs : List RawAssoc) (g : Adjacency),
      (∀ p, (g.childrenOf p).Nodup) →
      ∀ p, ((assocs.foldl (assocStep index) g).childrenOf p).Nodup
  | [], _, h => h
  | a :: rest, g, h => by
      rw [List.foldl_cons]
      refine foldl_assoc_children_nodup index rest _ ?_
      intro p
      rcases assocStep_cases index g a with hc | ⟨parent, child, _, _, hch, _⟩
      · rw [hc]; exact h p
      · rw [hch]
        by_cases hp : p = parent <;>
          simp only [hp, ite_true, ite_false]
        · exact nodup_appendIfAbsent _ (h parent)
        · exact h p

theorem foldl_assoc_parents_nodup (index : List (String × RawItem)) :
    ∀ (assocs : List RawAssoc) (g : Adjacency),
      (∀ p, (g.parentsOf p).Nodup) →
      ∀ p, ((assocs.foldl (assocStep index) g).parentsOf p).Nodup
  | [], _, h => h
  | a :: rest, g, h => by
      rw [List.foldl_cons]
      refine foldl_assoc_parents_nodup index rest _ ?_
      intro p
      rcases assocStep_cases index g a with hc | ⟨parent, child, _, _, _, hpa⟩
      · rw [hc]; exact h p
      · rw [hpa]
        by_cases hp : p = child <;>
          simp only [hp, ite_true, ite_false]
        · exact nodup_appendIfAbsent _ (h child)
        · exact h p

/-- Claim C7: in the built adjacency structure no parent's child list
contains a duplicate identifier, and an association whose resolved child is
already present under its resolved parent leaves every child list
unchanged (a no-op, not an error). -/
theorem children_lists_nodup (index : List (String × RawItem))
    (assocs : List RawAssoc) :
    (∀ p, ((buildAdjacency index assocs).childrenOf p).Nodup)
  ∧ ∀ (g : Adjacency) (a : RawAssoc) (parent child : String),
      is_childof_type a.associationType = true →
      resolve_endpoint index
          (pyOrEp a.destinationNodeURI a.destinationNodeIdentifier)
        = some parent →
      resolve_endpoint index
          (pyOrEp a.originNodeURI a.originNodeIdentifier)
        = some child →
      child ∈ g.childrenOf parent →
      (assocStep index g a).childrenOf = g.childrenOf := by
  constructor
  · exact foldl_assoc_children_nodup index assocs emptyAdjacency
      (fun _ => List.nodup_nil)
  · intro g a parent child ht hd ho hmem
    funext k
    simp only [assocStep, ht, not_true_eq_false, ite_false, hd, ho]
    by_cases hk : k = parent
    · subst hk
      simp only [ite_true, appendIfAbsent_of_mem hmem]
    · simp only [hk, ite_false]

/-- Claim C7 witness: a concrete two-item document; the built child list is
duplicate-free, and re-adding the existing edge changes no child list. -/
theorem children_lists_nodup_witness :
    (((buildAdjacency
        [("p", ({ identifier := some "p" } : RawItem)),
         ("c", ({ identifier := some "c" } : RawItem))]
        [({ associationType := .vstr "isChildOf",
            destinationNodeURI := some (.epStr "p"),
            originNodeURI := some (.epStr "c") } : RawAssoc)]).childrenOf
      "p").Nodup)
  ∧ (assocStep
        [("p", ({ identifier := some "p" } : RawItem)),
         ("c", ({ identifier := some "c" } : RawItem))]
        { childrenOf := fun k => if k = "p" then ["c"] else [],
          parentsOf := fun _ => [], seqFor := fun _ => none }
        ({ associationType := .vstr "isChildOf",
           destinationNodeURI := some (.epStr "p"),
           originNodeURI := some (.epStr "c") } : RawAssoc)).childrenOf
      = fun k => if k = "p" then ["c"] else [] :=
  ⟨(children_lists_nodup _ _).1 "p",
    (children_lists_nodup
        [("p", ({ identifier := some "p" } : RawItem)),
         ("c", ({ identifier := some "c" } : RawItem))] []).2
      _ _ "p" "c" (by decide) (by decide) (by decide) (by decide)⟩

/-- Claim C8: an association whose relation-kind tag does not normalise to
child-of/part-of, or either of whose endpoints fails to resolve to an
indexed identifier, leaves the adjacency state completely unchanged; the
embedded step is a total function, so no error is ever raised. -/
theorem malformed_association_no_edge (index : List (String × RawItem))
    (g : Adjacency) (a : RawAssoc)
    (h : is_childof_type a.associationType = false
      ∨ resolve_endpoint index
          (pyOrEp a.destinationNodeURI a.destinationNodeIdentifier) = none
      ∨ resolve_endpoint index
          (pyOrEp a.originNodeURI a.originNodeIdentifier) = none) :
    assocStep index g a = g := by
  by_cases ht : is_childof_type a.associationType
  · rcases h with h | h | h
    · rw [ht] at h; cases h
    · cases hd : resolve_endpoint index
          (pyOrEp a.destinationNodeURI a.destinationNodeIdentifier) with
      | none => simp [assocStep, ht, hd]
      | some parent => rw [hd] at h; cases h
    · cases hd : resolve_endpoint index
          (pyOrEp a.destinationNodeURI a.destinationNodeIdentifier) <;>
        simp [assocStep, ht, hd, h]
  · simp [assocStep, ht]

/-- Claim C8 witness: a `memberOf` association between indexed items, and a
child-of association with an unresolvable origin, each leave a concrete
adjacency state untouched. -/
theorem malformed_association_no_edge_witness :
    assocStep [("x", ({ identifier := some "x" } : RawItem))] emptyAdjacency
        ({ associationType := .vstr "memberOf",
           destinationNodeURI := some (.epStr "x"),
           originNodeURI := some (.epStr "x") } : RawAssoc)
      = emptyAdjacency
  ∧ assocStep [("x", ({ identifier := some "x" } : RawItem))] emptyAdjacency
        ({ associationType := .vstr "isChildOf",
           destinationNodeURI := some (.epStr "x"),
           originNodeURI := some (.epStr "missing") } : RawAssoc)
      = emptyAdjacency :=
  ⟨malformed_association_no_edge _ _ _ (Or.inl (by decide)),
    malformed_association_no_edge _ _ _ (Or.inr (Or.inr (by decide)))⟩

/-!  Lemmas: pathway course-target aggregation. -/

theorem mem_addIf_outer (cof : String → List String) (courses : List String) :
    ∀ (parents init : List String) (x : String),
      (x ∈ parents.foldl
          (fun acc q => (cof q).foldl
            (fun acc2 c =>
              if c ∈ courses then appendIfAbsent acc2 c else acc2)
            acc)
          init
        ↔ x ∈ init ∨ ∃ q, q ∈ parents ∧ x ∈ cof q ∧ x ∈ courses)
  | [], init, x => by simp
  | q :: rest, init, x => by
      rw [List.foldl_cons, mem_addIf_outer cof courses rest _ x,
        mem_foldl_addIf (P := (· ∈ courses))]
      constructor
      · rintro ((h | ⟨hc, hm⟩) | ⟨r, hr, hcr, hmr⟩)
        · exact Or.inl h
        · exact Or.inr ⟨q, List.mem_cons_self q rest, hc, hm⟩
        · exact Or.inr ⟨r, List.mem_cons_of_mem q hr, hcr, hmr⟩
      · rintro (h | ⟨r, hr, hcr, hmr⟩)
        · exact Or.inl (Or.inl h)
        · rcases List.mem_cons.mp hr with rfl | hr'
          · exact Or.inl (Or.inr ⟨hcr, hmr⟩)
          · exact Or.inr ⟨r, hr', hcr, hmr⟩

theorem nodup_addIf_outer (cof : String → List String)
    (courses : List String) :
    ∀ (parents init : List String), init.Nodup →
      (parents.foldl
          (fun acc q => (cof q).foldl
            (fun acc2 c =>
              if c ∈ courses then appendIfAbsent acc2 c else acc2)
            acc)
          init).Nodup
  | [], _, h => h
  | q :: rest, init, h => by
      rw [List.foldl_cons]
      exact nodup_addIf_outer cof courses rest _
        (nodup_foldl_addIf (P := (· ∈ courses)) (cof q) init h)

theorem mem_courseTargets (g : Adjacency) (courses : List String)
    (p x : String) :
    x ∈ courseTargets g courses p
      ↔ (((∃ q, q ∈ g.parentsOf p ∧ x ∈ g.childrenOf q)
            ∨ x ∈ g.childrenOf p)
          ∧ x ∈ courses) := by
  unfold courseTargets
  rw [mem_foldl_addIf (P := (· ∈ courses)),
    mem_addIf_outer g.childrenOf courses (g.parentsOf p) [] x]
  simp only [List.not_mem_nil, false_or]
  constructor
  · rintro (⟨q, hq, hc, hm⟩ | ⟨hc, hm⟩)
    · exact ⟨Or.inl ⟨q, hq, hc⟩, hm⟩
    · exact ⟨Or.inr hc, hm⟩
  · rintro ⟨⟨q, hq, hc⟩ | hc, hm⟩
    · exact Or.inl ⟨q, hq, hc, hm⟩
    · exact Or.inr ⟨hc, hm⟩

theorem nodup_courseTargets (g : Adjacency) (courses : List String)
    (p : String) : (courseTargets g courses p).Nodup := by
  unfold courseTargets
  exact nodup_foldl_addIf (P := (· ∈ courses)) _ _
    (nodup_addIf_outer g.childrenOf courses (g.parentsOf p) [] List.nodup_nil)

theorem charsLe_total : ∀ as bs : List Char,
    charsLe as bs = true ∨ charsLe bs as = true
  | [], _ => Or.inl rfl
  | _ :: _, [] => Or.inr rfl
  | a :: as, b :: bs => by
      by_cases hab : a = b
      · subst hab
        simp only [charsLe, if_pos rfl]
        exact charsLe_total as bs
      · rcases lt_or_gt_of_ne hab with h | h
        · left
          simp only [charsLe, if_neg hab, decide_eq_true_eq]
          exact h
        · right
          simp only [charsLe, if_neg (Ne.symm hab), decide_eq_true_eq]
          exact h

theorem charsLe_trans : ∀ as bs cs : List Char,
    charsLe as bs = true → charsLe bs cs = true → charsLe as cs = true
  | [], _, _, _, _ => rfl
  | _ :: _, [], _, hab, _ => by cases hab
  | _ :: _, _ :: _, [], _, hbc => by cases hbc
  | a :: as, b :: bs, c :: cs, hab, hbc => by
      by_cases h1 : a = b <;> by_cases h2 : b = c
      · subst h1; subst h2
        simp only [charsLe, if_pos rfl] at hab hbc ⊢
        exact charsLe_trans as bs cs hab hbc
      · subst h1
        simp only [charsLe, if_neg h2] at hbc ⊢
        exact hbc
      · subst h2
        simp only [charsLe, if_neg h1] at hab ⊢
        exact hab
      · simp only [charsLe, if_neg h1, if_neg h2, decide_eq_true_eq] at hab hbc
        have h3 : a < c := lt_trans hab hbc
        simp only [charsLe, if_neg (ne_of_lt h3), decide_eq_true_eq]
        exact h3

theorem sortStrings_perm (l : List String) : List.Perm (sortStrings l) l :=
  List.perm_insertionSort _ l

theorem mem_sortStrings (l : List String) (x : String) :
    x ∈ sortStrings l ↔ x ∈ l :=
  (sortStrings_perm l).mem_iff

theorem nodup_sortStrings {l : List String} (h : l.Nodup) :
    (sortStrings l).Nodup :=
  ((sortStrings_perm l).nodup_iff).mpr h

theorem sortStrings_sorted (l : List String) :
    List.Sorted (fun a b : String => pyStrLe a b = true) (sortStrings l) := by
  haveI : IsTotal String (fun a b => pyStrLe a b = true) :=
    ⟨fun a b => charsLe_total a.data b.data⟩
  haveI : IsTrans String (fun a b => pyStrLe a b = true) :=
    ⟨fun a b c => charsLe_trans a.data b.data c.data⟩
  exact List.sorted_insertionSort _ l

/-- Claim C1: for any document, the pathway's aggregated
preparation-target identifier list holds exactly the course identifiers
found among the children of the pathway's parents together with the
pathway's own direct course children, deduplicated and sorted, and the
rendered list maps each identifier to its registry URI in that order. -/
theorem prep_targets_characterization (reg_base : String)
    (items : List RawItem) (assocs : List RawAssoc) (p : String)
    (g : Adjacency) (courses : List String)
    (hg : g = buildAdjacency (buildIndex items).1 assocs)
    (hc : courses
      = classifyCourseIdents (buildIndex items).1 (buildIndex items).2.1) :
    (∀ c, c ∈ sortStrings (courseTargets g courses p)
        ↔ (((∃ q, q ∈ g.parentsOf p ∧ c ∈ g.childrenOf q)
              ∨ c ∈ g.childrenOf p)
            ∧ c ∈ courses))
  ∧ (sortStrings (courseTargets g courses p)).Nodup
  ∧ List.Sorted (fun a b : String => pyStrLe a b = true)
      (sortStrings (courseTargets g courses p))
  ∧ targetCourseUris reg_base g courses p
      = (sortStrings (courseTargets g courses p)).map
          (fun cid => reg_id reg_base (ceTag cid)) := by
  refine ⟨fun c => ?_, nodup_sortStrings (nodup_courseTargets g courses p),
    sortStrings_sorted _, rfl⟩
  rw [mem_sortStrings]
  exact mem_courseTargets g courses p c

/-- Claim C1 witness: the spec's scenario — a pathway with two
parent-pathway links, each parent exposing a different sibling course —
instantiated concretely; both facts follow by applying the claim theorem
at that document. -/
theorem prep_targets_characterization_witness :
    targetCourseUris DEFAULT_REG_BASE sampleAdjacency sampleCourses "pw"
      = (sortStrings (courseTargets sampleAdjacency sampleCourses "pw")).map
          (fun cid => reg_id DEFAULT_REG_BASE (ceTag cid))
  ∧ ("c1" ∈ sortStrings (courseTargets sampleAdjacency sampleCourses "pw")
      ↔ (((∃ q, q ∈ sampleAdjacency.parentsOf "pw"
              ∧ "c1" ∈ sampleAdjacency.childrenOf q)
            ∨ "c1" ∈ sampleAdjacency.childrenOf "pw")
          ∧ "c1" ∈ sampleCourses)) :=
  ⟨(prep_targets_characterization DEFAULT_REG_BASE sampleItems sampleAssocs
      "pw" _ _ rfl rfl).2.2.2,
    (prep_targets_characterization DEFAULT_REG_BASE sampleItems sampleAssocs
      "pw" _ _ rfl rfl).1 "c1"⟩

/-- Scenario check (evaluated): the pathway's rendered preparation-target
list contains both sibling course registry URIs, deduplicated and sorted. -/
theorem prep_targets_scenario :
    targetCourseUris DEFAULT_REG_BASE sampleAdjacency sampleCourses "pw"
      = ["https://credentialengineregistry.org/resources/ce-c1",
         "https://credentialengineregistry.org/resources/ce-c2"] := by
  decide

/-!  Lemmas: the SHA-1 / UUID5 embedding. -/

set_option maxRecDepth 10000 in
/-- Sanity vector: the embedded SHA-1 reproduces the standard digest of
`"abc"`. -/
theorem sha1_abc_vector :
    String.mk (bytesToHexChars (sha1Bytes (utf8Bytes "abc")))
      = "a9993e364706816aba3e25717850c26c9cd0d89d" := by rfl

set_option maxRecDepth 10000 in
/-- Sanity vector: the embedded `uuid5` reproduces the documented
`uuid5(NAMESPACE_DNS, "python.org")`. -/
theorem uuid5_dns_vector :
    String.mk (uuid5Hex NAMESPACE_DNS_BYTES "python.org")
      = "886313e13b8a53729b900c9aee199e5d" := by rfl

theorem sha1Bytes_length (msg : List Nat) : (sha1Bytes msg).length = 20 := by
  simp [sha1Bytes, wordToBytes]

theorem bytesToHexChars_length :
    ∀ bs : List Nat, (bytesToHexChars bs).length = 2 * bs.length
  | [] => rfl
  | b :: rest => by
      simp only [bytesToHexChars, List.flatMap_cons, List.length_append,
        List.length_cons, List.length_nil, List.length_cons]
      have := bytesToHexChars_length rest
      simp only [bytesToHexChars] at this
      omega

theorem uuid5Bytes_length (ns : List Nat) (name : String) :
    (uuid5Bytes ns name).length = 16 := by
  simp [uuid5Bytes, List.enum_length, sha1Bytes_length]

theorem uuid5Hex_length (ns : List Nat) (name : String) :
    (uuid5Hex ns name).length = 32 := by
  simp [uuid5Hex, bytesToHexChars_length, uuid5Bytes_length]

theorem dashedHex_length (hx : List Char) (h : hx.length = 32) :
    (dashedHex hx).length = 36 := by
  simp [dashedHex, List.length_append, List.length_take, List.length_drop, h]

/-- Claim C3: the synthetic framework identifier is a pure function of the
course's tagged identifier — two items with equal identifiers give
byte-identical framework CTIDs across any runs of assembly — it is the
`uuid5(NAMESPACE_URL, "framework:" + course_ctid)` hex regrouped in
8-4-4-4-12 form behind the fixed `ce-` tag (39 characters in all). -/
theorem framework_ctid_deterministic (it1 it2 : RawItem)
    (h : itemIdent it1 = itemIdent it2) :
    frameworkCtidFor it1 = frameworkCtidFor it2
  ∧ frameworkCtidFor it1
      = String.mk ('c' :: 'e' :: '-' ::
          dashedHex (uuid5Hex NAMESPACE_URL_BYTES
            ("framework:" ++ ceTag (itemIdent it1))))
  ∧ (frameworkCtidFor it1).length = 39 := by
  refine ⟨by rw [frameworkCtidFor, h, frameworkCtidFor], rfl, ?_⟩
  show (String.mk ('c' :: 'e' :: '-' ::
      dashedHex (uuid5Hex NAMESPACE_URL_BYTES
        ("framework:" ++ ceTag (itemIdent it1))))).length = 39
  have h36 := dashedHex_length _ (uuid5Hex_length NAMESPACE_URL_BYTES
    ("framework:" ++ ceTag (itemIdent it1)))
  simp only [String.length, String.mk, List.length_cons]
  omega

/-- Claim C3 witness: two concrete items carrying the identifier `x` (one
with extra fields) receive the same, well-shaped framework CTID. -/
theorem framework_ctid_deterministic_witness :
    frameworkCtidFor ({ identifier := some "x" } : RawItem)
      = frameworkCtidFor
          ({ identifier := some "x", notes := .vstr "n" } : RawItem)
  ∧ (frameworkCtidFor ({ identifier := some "x" } : RawItem)).length = 39 :=
  ⟨(framework_ctid_deterministic _ _ (by decide)).1,
    (framework_ctid_deterministic
      ({ identifier := some "x" } : RawItem)
      ({ identifier := some "x", notes := .vstr "n" } : RawItem)
      (by decide)).2.2⟩

/-!  Lemmas: built course nodes and their validation. -/

theorem mem_values_dictInsert {α : Type} (d : List (String × α))
    (k : String) (v c : α) :
    c ∈ (dictInsert d k v).map Prod.snd → c ∈ d.map Prod.snd ∨ c = v := by
  unfold dictInsert
  by_cases hk : k ∈ d.map Prod.fst <;>
    simp only [hk, ite_true, ite_false]
  · rw [List.map_map]
    intro h
    rcases List.mem_map.mp h with ⟨p, hp, he⟩
    dsimp at he
    by_cases hpk : p.1 = k
    · rw [if_pos hpk] at he
      exact Or.inr he.symm
    · rw [if_neg hpk] at he
      exact Or.inl (he ▸ List.mem_map_of_mem Prod.snd hp)
  · rw [List.map_append]
    intro h
    rcases List.mem_append.mp h with h | h
    · exact Or.inl h
    · simp only [List.map_cons, List.map_nil, List.mem_singleton] at h
      exact Or.inr h

theorem buildCourses_fold_fields (reg_base : String) (fwLang : Option String)
    (ix : List (String × RawItem)) (uris : List (String × String)) :
    ∀ (idents : List String) (acc : List (String × CourseNode)),
      (∀ c ∈ acc.map Prod.snd,
        c.lifeCycleStatusType = none ∧ c.ownedBy = none ∧ c.offeredBy = none) →
      ∀ c ∈ (idents.foldl
          (fun acc ident =>
            match dictGet ix ident with
            | some it =>
                if is_course it then
                  dictInsert acc ident
                    (buildCourseNode reg_base fwLang it ident
                      ((dictGet uris ident).getD ""))
                else acc
            | none => acc)
          acc).map Prod.snd,
        c.lifeCycleStatusType = none ∧ c.ownedBy = none ∧ c.offeredBy = none
  | [], _, h => h
  | i :: rest, acc, h => by
      rw [List.foldl_cons]
      refine buildCourses_fold_fields reg_base fwLang ix uris rest _ ?_
      intro c hc
      cases hg : dictGet ix i with
      | none =>
          rw [hg] at hc
          exact h c hc
      | some it =>
          rw [hg] at hc
          by_cases hcrs : is_course it
          · simp only [hcrs, ite_true] at hc
            rcases mem_values_dictInsert _ _ _ _ hc with hm | rfl
            · exact h c hm
            · exact ⟨rfl, rfl, rfl⟩
          · simp only [hcrs, ite_false] at hc
            exact h c hc

theorem buildCourses_fields (reg_base : String) (fwLang : Option String)
    (items : List RawItem) :
    ∀ c ∈ (buildCourses reg_base fwLang items).map Prod.snd,
      c.lifeCycleStatusType = none ∧ c.ownedBy = none ∧ c.offeredBy = none := by
  intro c hc
  refine buildCourses_fold_fields reg_base fwLang
    (buildIndex items).1 (buildIndex items).2.2 (buildIndex items).2.1 []
    (fun c hc => by simp at hc) c ?_
  simpa [buildCourses] using hc

theorem validate_course_missing (reg_base : String) (c : CourseNode)
    (h1 : c.lifeCycleStatusType = none) (h2 : c.ownedBy = none)
    (h3 : c.offeredBy = none) :
    "Missing ceterms:lifeCycleStatusType" ∈ validate_course reg_base c
  ∧ "Missing ceterms:ownedBy or ceterms:offeredBy (one required)"
      ∈ validate_course reg_base c
  ∧ 2 ≤ (validate_course reg_base c).length := by
  refine ⟨?_, ?_, ?_⟩ <;>
    simp [validate_course, h1, h2, h3, ovTruthy, validateOrgField,
      List.length_append] <;>
    omega

theorem coursesReport_fold (reg_base : String) :
    ∀ (nodes : List CourseNode) (acc : List (String × List String)),
      (∀ c ∈ nodes, validate_course reg_base c ≠ []) →
      (nodes.foldl
          (fun acc c =>
            let errs := validate_course reg_base c
            if errs = [] then acc else acc ++ [(c.atid, errs)])
          acc).map Prod.fst
        = acc.map Prod.fst ++ nodes.map (fun c => c.atid)
  | [], acc, _ => by simp
  | c :: rest, acc, h => by
      rw [List.foldl_cons]
      have hne : validate_course reg_base c ≠ [] :=
        h c (List.mem_cons_self c rest)
      simp only [hne, ite_false]
      rw [coursesReport_fold reg_base rest _
        (fun x hx => h x (List.mem_cons_of_mem c hx))]
      simp [List.append_assoc]

/-- Claim C10: the course builder never sets a life-cycle status or an
ownership/offering reference, the course validator unconditionally demands
both, so every built course yields at least the two corresponding
violations, and consequently the validation report's courses list has one
entry per built course. -/
theorem built_courses_always_invalid (reg_base : String)
    (fwLang : Option String) (items : List RawItem) :
    (∀ c ∈ (buildCourses reg_base fwLang items).map Prod.snd,
        "Missing ceterms:lifeCycleStatusType" ∈ validate_course reg_base c
      ∧ "Missing ceterms:ownedBy or ceterms:offeredBy (one required)"
          ∈ validate_course reg_base c
      ∧ 2 ≤ (validate_course reg_base c).length)
  ∧ (coursesReport reg_base
        ((buildCourses reg_base fwLang items).map Prod.snd)).map Prod.fst
      = ((buildCourses reg_base fwLang items).map Prod.snd).map
          (fun c => c.atid) := by
  have key : ∀ c ∈ (buildCourses reg_base fwLang items).map Prod.snd,
      "Missing ceterms:lifeCycleStatusType" ∈ validate_course reg_base c
    ∧ "Missing ceterms:ownedBy or ceterms:offeredBy (one required)"
        ∈ validate_course reg_base c
    ∧ 2 ≤ (validate_course reg_base c).length := by
    intro c hc
    obtain ⟨h1, h2, h3⟩ := buildCourses_fields reg_base fwLang items c hc
    exact validate_course_missing reg_base c h1 h2 h3
  refine ⟨key, ?_⟩
  have hne : ∀ c ∈ (buildCourses reg_base fwLang items).map Prod.snd,
      validate_course reg_base c ≠ [] := by
    intro c hc hemp
    have := (key c hc).2.2
    rw [hemp] at this
    simp at this
  have := coursesReport_fold reg_base
    ((buildCourses reg_base fwLang items).map Prod.snd) [] hne
  simpa [coursesReport] using this

/-- Claim C10 witness: on the sample document the first built course (for
item `c1`) carries at least two violations, and the report lists every
built course's registry id. -/
theorem built_courses_always_invalid_witness :
    2 ≤ (validate_course DEFAULT_REG_BASE
        (buildCourseNode DEFAULT_REG_BASE none
          ({ identifier := some "c1", CFItemType := .vstr "Course" } : RawItem)
          "c1" "")).length
  ∧ (coursesReport DEFAULT_REG_BASE
        ((buildCourses DEFAULT_REG_BASE none sampleItems).map Prod.snd)).map
          Prod.fst
      = ((buildCourses DEFAULT_REG_BASE none sampleItems).map Prod.snd).map
          (fun c => c.atid) :=
  ⟨((built_courses_always_invalid DEFAULT_REG_BASE none sampleItems).1 _
      (List.mem_cons_self _ _)).2.2,
    (built_courses_always_invalid DEFAULT_REG_BASE none sampleItems).2⟩

/-!  Lemmas: subtree expansion — visited-set invariants, duplicate
freedom, and fuel stability (the termination argument of the source's
unbounded recursion). -/

theorem expandFuel_succ (cof : String → List String) (comps : List String)
    (fuel : Nat) (root : String) (seen : List String) :
    expandFuel cof comps (fuel + 1) root seen
      = if root ∉ comps ∨ root ∈ seen then ([], seen)
        else (cof root).foldl (expandChild cof comps fuel)
          ([root], root :: seen) := rfl

theorem expandRoots_eq (cof : String → List String) (comps : List String)
    (fuel : Nat) (roots : List String) :
    expandRoots cof comps fuel roots
      = roots.foldl (expandRootStep cof comps fuel) ([], []) := rfl

theorem countUnseen_mono (comps s1 s2 : List String)
    (h : ∀ x ∈ s1, x ∈ s2) :
    countUnseen comps s2 ≤ countUnseen comps s1 := by
  unfold countUnseen
  refine List.Sublist.length_le (List.monotone_filter_right comps ?_)
  intro a
  by_cases ha : a ∈ s2
  · simp [ha]
  · have : a ∉ s1 := fun h1 => ha (h a h1)
    simp [ha, this]

theorem countUnseen_cons_lt (comps seen : List String) (root : String)
    (hin : root ∈ comps) (hout : root ∉ seen) :
    countUnseen comps (root :: seen) < countUnseen comps seen := by
  induction comps with
  | nil => cases hin
  | cons c rest ih =>
      unfold countUnseen at ih ⊢
      by_cases hc : c = root
      · subst hc
        rw [List.filter_cons_of_neg (by simp),
          List.filter_cons_of_pos (by simpa using hout), List.length_cons]
        have hmono := countUnseen_mono rest seen (c :: seen)
          (fun x hx => List.mem_cons_of_mem c hx)
        unfold countUnseen at hmono
        omega
      · have hin' : root ∈ rest := by
          rcases List.mem_cons.mp hin with h | h
          · exact absurd h.symm hc
          · exact h
        have hlt := ih hin'
        by_cases hcs : c ∈ seen
        · rw [List.filter_cons_of_neg (by simp [hcs]),
            List.filter_cons_of_neg (by simp [hcs])]
          exact hlt
        · have hcrs : c ∉ root :: seen := by
            simp only [List.mem_cons]
            rintro (h | h)
            · exact hc h
            · exact hcs h
          rw [List.filter_cons_of_pos (by simpa using hcrs),
            List.filter_cons_of_pos (by simpa using hcs),
            List.length_cons, List.length_cons]
          omega

theorem expandFuel_inv (cof : String → List String) (comps : List String) :
    ∀ (fuel : Nat) (root : String) (seen : List String),
      (∀ x, x ∈ (expandFuel cof comps fuel root seen).2
          ↔ x ∈ seen ∨ x ∈ (expandFuel cof comps fuel root seen).1)
    ∧ (expandFuel cof comps fuel root seen).1.Nodup
    ∧ (∀ x ∈ (expandFuel cof comps fuel root seen).1, x ∉ seen)
  | 0, root, seen => by
      refine ⟨fun x => ?_, List.nodup_nil, fun x hx => absurd hx
        (List.not_mem_nil x)⟩
      show x ∈ seen ↔ x ∈ seen ∨ x ∈ ([] : List String)
      simp
  | fuel + 1, root, seen => by
      rw [expandFuel_succ]
      by_cases hguard : root ∉ comps ∨ root ∈ seen
      · simp only [hguard, ite_true]
        refine ⟨fun x => by simp, List.nodup_nil, fun x hx => absurd hx
          (List.not_mem_nil x)⟩
      · simp only [hguard, ite_false]
        push_neg at hguard
        obtain ⟨hin, hout⟩ := hguard
        have F : ∀ (l : List String) (acc : List String × List String),
            ∃ out : List String,
              (l.foldl (expandChild cof comps fuel) acc).1 = acc.1 ++ out
            ∧ (∀ x, x ∈ (l.foldl (expandChild cof comps fuel) acc).2
                ↔ x ∈ acc.2 ∨ x ∈ out)
            ∧ out.Nodup
            ∧ (∀ x ∈ out, x ∉ acc.2) := by
          intro l
          induction l with
          | nil =>
              intro acc
              exact ⟨[], by simp, fun x => by simp, List.nodup_nil,
                fun x hx => absurd hx (List.not_mem_nil x)⟩
          | cons ch rest ih =>
              intro acc
              rw [List.foldl_cons]
              by_cases hch : ch ∈ comps ∧ ch ∉ acc.2
              · have hstep : expandChild cof comps fuel acc ch
                    = (acc.1 ++ (expandFuel cof comps fuel ch acc.2).1,
                        (expandFuel cof comps fuel ch acc.2).2) := by
                  simp [expandChild, hch]
                obtain ⟨ha, hb, hc⟩ := expandFuel_inv cof comps fuel ch acc.2
                obtain ⟨out', h1, h2, h3, h4⟩ :=
                  ih (acc.1 ++ (expandFuel cof comps fuel ch acc.2).1,
                      (expandFuel cof comps fuel ch acc.2).2)
                rw [hstep]
                refine ⟨(expandFuel cof comps fuel ch acc.2).1 ++ out', ?_,
                  fun x => ?_, ?_, fun x hx => ?_⟩
                · rw [h1]; simp [List.append_assoc]
                · rw [h2 x]
                  simp only [List.mem_append]
                  rw [ha x]
                  tauto
                · refine hb.append h3 ?_
                  intro x hx hx'
                  exact h4 x hx' ((ha x).mpr (Or.inr hx))
                · rcases List.mem_append.mp hx with hx | hx
                  · exact hc x hx
                  · exact fun hacc =>
                      h4 x hx ((ha x).mpr (Or.inl hacc))
              · have hstep : expandChild cof comps fuel acc ch = acc := by
                  simp [expandChild, hch]
                rw [hstep]
                exact ih acc
        obtain ⟨out, h1, h2, h3, h4⟩ := F (cof root) ([root], root :: seen)
        refine ⟨fun x => ?_, ?_, fun x hx => ?_⟩
        · rw [h2 x, h1]
          simp only [List.mem_cons, List.singleton_append, List.mem_cons]
          tauto
        · rw [h1]
          rw [List.singleton_append]
          refine List.Pairwise.cons (fun y hy => ?_) h3
          intro he
          exact h4 y hy (he ▸ List.mem_cons_self root seen)
        · rw [h1] at hx
          rcases List.mem_append.mp hx with hx | hx
          · rw [List.mem_singleton] at hx
            exact hx ▸ hout
          · exact fun hseen => h4 x hx (List.mem_cons_of_mem root hseen)

theorem expandFuel_stable (cof : String → List String)
    (comps : List String) :
    ∀ (fuel : Nat) (root : String) (seen : List String),
      countUnseen comps seen ≤ fuel →
      expandFuel cof comps (fuel + 1) root seen
        = expandFuel cof comps fuel root seen
  | 0, root, seen, h => by
      have hall : ∀ c ∈ comps, c ∈ seen := by
        have : comps.filter (fun c => ¬ c ∈ seen) = [] :=
          List.length_eq_zero.mp (Nat.le_zero.mp h)
        intro c hc
        by_contra hcs
        have : c ∈ comps.filter (fun c => ¬ c ∈ seen) :=
          List.mem_filter.mpr ⟨hc, by simpa using hcs⟩
        rw [List.length_eq_zero.mp (Nat.le_zero.mp h)] at this
        exact List.not_mem_nil c this
      rw [expandFuel_succ]
      have hguard : root ∉ comps ∨ root ∈ seen := by
        by_cases hr : root ∈ comps
        · exact Or.inr (hall root hr)
        · exact Or.inl hr
      simp only [hguard, ite_true]
      rfl
  | fuel + 1, root, seen, h => by
      rw [expandFuel_succ, expandFuel_succ]
      by_cases hguard : root ∉ comps ∨ root ∈ seen
      · simp only [hguard, ite_true]
      · simp only [hguard, ite_false]
        push_neg at hguard
        obtain ⟨hin, hout⟩ := hguard
        have hstart : countUnseen comps (root :: seen) ≤ fuel := by
          have := countUnseen_cons_lt comps seen root hin hout
          omega
        have FS : ∀ (l : List String) (acc : List String × List String),
            countUnseen comps acc.2 ≤ fuel →
            l.foldl (expandChild cof comps (fuel + 1)) acc
              = l.foldl (expandChild cof comps fuel) acc := by
          intro l
          induction l with
          | nil => intro acc _; rfl
          | cons ch rest ih =>
              intro acc hacc
              rw [List.foldl_cons, List.foldl_cons]
              by_cases hch : ch ∈ comps ∧ ch ∉ acc.2
              · have heq : expandFuel cof comps (fuel + 1) ch acc.2
                    = expandFuel cof comps fuel ch acc.2 :=
                  expandFuel_stable cof comps fuel ch acc.2 hacc
                have hstep1 : expandChild cof comps (fuel + 1) acc ch
                    = (acc.1 ++ (expandFuel cof comps fuel ch acc.2).1,
                        (expandFuel cof comps fuel ch acc.2).2) := by
                  simp [expandChild, hch, heq]
                have hstep2 : expandChild cof comps fuel acc ch
                    = (acc.1 ++ (expandFuel cof comps fuel ch acc.2).1,
                        (expandFuel cof comps fuel ch acc.2).2) := by
                  simp [expandChild, hch]
                rw [hstep1, hstep2]
                refine ih _ ?_
                have hsub : ∀ x ∈ acc.2,
                    x ∈ (expandFuel cof comps fuel ch acc.2).2 := by
                  intro x hx
                  exact ((expandFuel_inv cof comps fuel ch acc.2).1 x).mpr
                    (Or.inl hx)
                exact le_trans (countUnseen_mono comps acc.2 _ hsub) hacc
              · have hstep1 : expandChild cof comps (fuel + 1) acc ch = acc := by
                  simp [expandChild, hch]
                have hstep2 : expandChild cof comps fuel acc ch = acc := by
                  simp [expandChild, hch]
                rw [hstep1, hstep2]
                exact ih acc hacc
        exact FS (cof root) ([root], root :: seen) hstart

theorem expandFuel_stable_add (cof : String → List String)
    (comps : List String) (fuel : Nat) (root : String) (seen : List String)
    (h : countUnseen comps seen ≤ fuel) :
    ∀ k : Nat, expandFuel cof comps (fuel + k) root seen
      = expandFuel cof comps fuel root seen
  | 0 => rfl
  | k + 1 => by
      have : fuel + (k + 1) = (fuel + k) + 1 := by omega
      rw [this, expandFuel_stable cof comps (fuel + k) root seen
        (le_trans h (Nat.le_add_right fuel k))]
      exact expandFuel_stable_add cof comps fuel root seen h k

theorem expandFuel_congr (cof : String → List String) (comps : List String)
    (f1 f2 : Nat) (root : String) (seen : List String)
    (h1 : countUnseen comps seen ≤ f1) (h2 : countUnseen comps seen ≤ f2) :
    expandFuel cof comps f1 root seen = expandFuel cof comps f2 root seen := by
  rcases Nat.le_total f1 f2 with hle | hle
  · have := expandFuel_stable_add cof comps f1 root seen h1 (f2 - f1)
    rw [show f1 + (f2 - f1) = f2 by omega] at this
    exact this.symm
  · have := expandFuel_stable_add cof comps f2 root seen h2 (f1 - f2)
    rw [show f2 + (f1 - f2) = f1 by omega] at this
    exact this

theorem countUnseen_nil_seen (comps : List String) :
    countUnseen comps [] = comps.length := by
  unfold countUnseen
  rw [List.filter_eq_self.mpr]
  intro a _
  simp

/-- Claim C2: on every adjacency function — cyclic ones included — the
fuel-indexed embedding of `expand_competency_subtree`, run over any root
list with one shared visited set, is independent of the fuel once the fuel
reaches the number of eligible competencies (so the source's unbounded
recursion terminates with exactly this value), and the concatenated output
sequence contains each node identifier at most once. -/
theorem subtree_expansion_terminates (cof : String → List String)
    (comps roots : List String) (f1 f2 : Nat)
    (h1 : comps.length ≤ f1) (h2 : comps.length ≤ f2) :
    expandRoots cof comps f1 roots = expandRoots cof comps f2 roots
  ∧ (expandRoots cof comps f1 roots).1.Nodup := by
  constructor
  · rw [expandRoots_eq, expandRoots_eq]
    have FS : ∀ (l : List String) (acc : List String × List String),
        countUnseen comps acc.2 ≤ f1 → countUnseen comps acc.2 ≤ f2 →
        l.foldl (expandRootStep cof comps f1) acc
          = l.foldl (expandRootStep cof comps f2) acc := by
      intro l
      induction l with
      | nil => intro acc _ _; rfl
      | cons r rest ih =>
          intro acc ha1 ha2
          rw [List.foldl_cons, List.foldl_cons]
          have heq : expandFuel cof comps f1 r acc.2
              = expandFuel cof comps f2 r acc.2 :=
            expandFuel_congr cof comps f1 f2 r acc.2 ha1 ha2
          have hstep : expandRootStep cof comps f1 acc r
              = expandRootStep cof comps f2 acc r := by
            simp [expandRootStep, heq]
          rw [hstep]
          refine ih _ ?_ ?_ <;>
          · have hsub : ∀ x ∈ acc.2,
                x ∈ (expandFuel cof comps f2 r acc.2).2 := by
              intro x hx
              exact ((expandFuel_inv cof comps f2 r acc.2).1 x).mpr (Or.inl hx)
            simp only [expandRootStep]
            first
            | exact le_trans (countUnseen_mono comps acc.2 _ hsub) ha1
            | exact le_trans (countUnseen_mono comps acc.2 _ hsub) ha2
    refine FS roots ([], []) ?_ ?_ <;>
      rw [countUnseen_nil_seen] <;> assumption
  · rw [expandRoots_eq]
    have G : ∀ (l : List String) (acc : List String × List String),
        ∃ out : List String,
          (l.foldl (expandRootStep cof comps f1) acc).1 = acc.1 ++ out
        ∧ (∀ x, x ∈ (l.foldl (expandRootStep cof comps f1) acc).2
            ↔ x ∈ acc.2 ∨ x ∈ out)
        ∧ out.Nodup
        ∧ (∀ x ∈ out, x ∉ acc.2) := by
      intro l
      induction l with
      | nil =>
          intro acc
          exact ⟨[], by simp, fun x => by simp, List.nodup_nil,
            fun x hx => absurd hx (List.not_mem_nil x)⟩
      | cons r rest ih =>
          intro acc
          rw [List.foldl_cons]
          obtain ⟨ha, hb, hc⟩ := expandFuel_inv cof comps f1 r acc.2
          obtain ⟨out', k1, k2, k3, k4⟩ :=
            ih (acc.1 ++ (expandFuel cof comps f1 r acc.2).1,
                (expandFuel cof comps f1 r acc.2).2)
          have hstep : expandRootStep cof comps f1 acc r
              = (acc.1 ++ (expandFuel cof comps f1 r acc.2).1,
                  (expandFuel cof comps f1 r acc.2).2) := rfl
          rw [hstep]
          refine ⟨(expandFuel cof comps f1 r acc.2).1 ++ out', ?_,
            fun x => ?_, ?_, fun x hx => ?_⟩
          · rw [k1]; simp [List.append_assoc]
          · rw [k2 x]
            simp only [List.mem_append]
            rw [ha x]
            tauto
          · refine hb.append k3 ?_
            intro x hx hx'
            exact k4 x hx' ((ha x).mpr (Or.inr hx))
          · rcases List.mem_append.mp hx with hx | hx
            · exact hc x hx
            · exact fun hacc => k4 x hx ((ha x).mpr (Or.inl hacc))
    obtain ⟨out, k1, _, k3, _⟩ := G roots ([], [])
    rw [k1]
    simpa using k3

/-- Claim C2 witness: a two-node cycle `a → b → a` (as produced by
malformed associations); expansion with fuel 2 and fuel 7 agree and the
shared-visited-set output over roots `a, b` is duplicate-free. -/
theorem subtree_expansion_terminates_witness :
    expandRoots (fun c => if c = "a" then ["b"]
        else if c = "b" then ["a"] else []) ["a", "b"] 2 ["a", "b"]
      = expandRoots (fun c => if c = "a" then ["b"]
        else if c = "b" then ["a"] else []) ["a", "b"] 7 ["a", "b"]
  ∧ (expandRoots (fun c => if c = "a" then ["b"]
        else if c = "b" then ["a"] else []) ["a", "b"] 2 ["a", "b"]).1.Nodup :=
  subtree_expansion_terminates _ ["a", "b"] ["a", "b"] 2 7
    (by decide) (by decide)

/-- Cycle-safety check (evaluated): on the two-node cycle the expansion
from roots `a, b` with one shared visited set lists each node once. -/
theorem subtree_expansion_cycle_scenario :
    (expandRoots (fun c => if c = "a" then ["b"]
        else if c = "b" then ["a"] else []) ["a", "b"] 2 ["a", "b"]).1
      = ["a", "b"] := by decide

/-!  Lemmas: local re-parenting inside one framework. -/

theorem mem_isChildOf_inner (reg_base g : String) :
    ∀ (cs : List String) (acc2 : String → List String) (k x : String),
      (x ∈ (cs.foldl
            (fun acc2 c => fun k =>
              if k = c then appendIfAbsent (acc2 c) (cloneId reg_base g)
              else acc2 k)
            acc2) k
        ↔ x ∈ acc2 k ∨ (k ∈ cs ∧ x = cloneId reg_base g))
  | [], acc2, k, x => by simp
  | c :: rest, acc2, k, x => by
      rw [List.foldl_cons, mem_isChildOf_inner reg_base g rest _ k x]
      by_cases hk : k = c
      · subst hk
        simp only [eq_self_iff_true, if_true, mem_appendIfAbsent,
          List.mem_cons]
        tauto
      · simp only [hk, if_false, List.mem_cons]
        tauto

theorem nodup_isChildOf_inner (reg_base g : String) :
    ∀ (cs : List String) (acc2 : String → List String),
      (∀ k, (acc2 k).Nodup) →
      ∀ k, ((cs.foldl
          (fun acc2 c => fun k =>
            if k = c then appendIfAbsent (acc2 c) (cloneId reg_base g)
            else acc2 k)
          acc2) k).Nodup
  | [], _, h, k => h k
  | c :: rest, acc2, h, k => by
      rw [List.foldl_cons]
      refine nodup_isChildOf_inner reg_base g rest _ (fun k' => ?_) k
      by_cases hk : k' = c
      · subst hk
        simp only [if_pos rfl]
        exact nodup_appendIfAbsent _ (h k')
      · simp only [if_neg hk]
        exact h k'

theorem mem_isChildOf_outer (cof : String → List String)
    (members : List String) (reg_base : String) :
    ∀ (ms : List String) (acc : String → List String) (k x : String),
      (x ∈ (ms.foldl
            (fun acc g =>
              (localChildren cof members g).foldl
                (fun acc2 c => fun k =>
                  if k = c then appendIfAbsent (acc2 c) (cloneId reg_base g)
                  else acc2 k)
                acc)
            acc) k
        ↔ x ∈ acc k
          ∨ ∃ gp, gp ∈ ms ∧ k ∈ localChildren cof members gp
              ∧ x = cloneId reg_base gp)
  | [], acc, k, x => by simp
  | g :: rest, acc, k, x => by
      rw [List.foldl_cons, mem_isChildOf_outer cof members reg_base rest _ k x,
        mem_isChildOf_inner reg_base g (localChildren cof members g) acc k x]
      constructor
      · rintro ((h | ⟨hlc, h⟩) | ⟨gp, hgp, hlcp, h⟩)
        · exact Or.inl h
        · exact Or.inr ⟨g, List.mem_cons_self g rest, hlc, h⟩
        · exact Or.inr ⟨gp, List.mem_cons_of_mem g hgp, hlcp, h⟩
      · rintro (h | ⟨gp, hgp, hlcp, h⟩)
        · exact Or.inl (Or.inl h)
        · rcases List.mem_cons.mp hgp with rfl | hgp'
          · exact Or.inl (Or.inr ⟨hlcp, h⟩)
          · exact Or.inr ⟨gp, hgp', hlcp, h⟩

theorem nodup_isChildOf_outer (cof : String → List String)
    (members : List String) (reg_base : String) :
    ∀ (ms : List String) (acc : String → List String),
      (∀ k, (acc k).Nodup) →
      ∀ k, ((ms.foldl
          (fun acc g =>
            (localChildren cof members g).foldl
              (fun acc2 c => fun k =>
                if k = c then appendIfAbsent (acc2 c) (cloneId reg_base g)
                else acc2 k)
              acc)
          acc) k).Nodup
  | [], _, h, k => h k
  | g :: rest, acc, h, k => by
      rw [List.foldl_cons]
      exact nodup_isChildOf_outer cof members reg_base rest _
        (nodup_isChildOf_inner reg_base g (localChildren cof members g) acc h)
        k

theorem mem_isChildOfLists (cof : String → List String)
    (members : List String) (reg_base : String) (k x : String) :
    x ∈ isChildOfLists cof members reg_base k
      ↔ ∃ gp, gp ∈ members ∧ k ∈ localChildren cof members gp
          ∧ x = cloneId reg_base gp := by
  unfold isChildOfLists
  rw [mem_isChildOf_outer cof members reg_base members (fun _ => []) k x]
  simp

theorem nodup_isChildOfLists (cof : String → List String)
    (members : List String) (reg_base : String) (k : String) :
    (isChildOfLists cof members reg_base k).Nodup := by
  unfold isChildOfLists
  exact nodup_isChildOf_outer cof members reg_base members (fun _ => [])
    (fun _ => List.nodup_nil) k

/-- Claim C6: within one assembled framework (any member list and
adjacency), when the members' clone `@id`s are pairwise distinct, clone A
lists clone B in its local `hasChild` list exactly when B's accumulated
`isChildOf` list carries A's `@id`; and no accumulated `isChildOf` list
ever holds the same parent id twice (parent references are additive and
deduplicated). -/
theorem reciprocal_parent_child_links (cof : String → List String)
    (members : List String) (reg_base : String) (a b : String)
    (ha : a ∈ members) (hb : b ∈ members)
    (hinj : (members.map (cloneId reg_base)).Nodup) :
    (cloneId reg_base b ∈ hasChildIds cof members reg_base a
      ↔ cloneId reg_base a ∈ isChildOfLists cof members reg_base b)
  ∧ (isChildOfLists cof members reg_base b).Nodup := by
  have inj := List.inj_on_of_nodup_map hinj
  refine ⟨?_, nodup_isChildOfLists cof members reg_base b⟩
  have hchild : cloneId reg_base b ∈ hasChildIds cof members reg_base a
      ↔ b ∈ localChildren cof members a := by
    unfold hasChildIds
    constructor
    · intro h
      rcases List.mem_map.mp h with ⟨c, hcl, hce⟩
      have hcl' : c ∈ cof a ∧ c ∈ members := by
        simpa [localChildren] using hcl
      have : c = b := inj hcl'.2 hb hce
      exact this ▸ hcl
    · intro h
      exact List.mem_map_of_mem (cloneId reg_base) h
  rw [hchild, mem_isChildOfLists]
  constructor
  · intro h
    exact ⟨a, ha, h, rfl⟩
  · rintro ⟨gp, hgp, hlcp, he⟩
    have : a = gp := inj ha hgp he
    exact this ▸ hlcp

/-- Claim C6 witness: members `p` and `c` with `c` a local child of `p` and
distinct clone ids; the reciprocity and duplicate-freedom follow by
applying the claim theorem there. -/
theorem reciprocal_parent_child_links_witness :
    (cloneId DEFAULT_REG_BASE "c"
        ∈ hasChildIds (fun g => if g = "p" then ["c"] else []) ["p", "c"]
            DEFAULT_REG_BASE "p"
      ↔ cloneId DEFAULT_REG_BASE "p"
          ∈ isChildOfLists (fun g => if g = "p" then ["c"] else []) ["p", "c"]
              DEFAULT_REG_BASE "c")
  ∧ (isChildOfLists (fun g => if g = "p" then ["c"] else []) ["p", "c"]
      DEFAULT_REG_BASE "c").Nodup :=
  reciprocal_parent_child_links (fun g => if g = "p" then ["c"] else [])
    ["p", "c"] DEFAULT_REG_BASE "p" "c"
    (by decide) (by decide) (by decide)

end CaseCtdl
